import Mathlib

/-!
# cmdref: a verification development for `internal/cmdref.go`

The Go package keeps a name-keyed `map[string]Command`, lets five handlers
(create, view, update, delete, import) act on it and persists the result
through the `CmdFileOperater` interface.

Go maps are reference values: a handler that writes through the map it was
given changes the map of its caller.  The embedding therefore keeps every map
object in a heap, a map value is a `Ref` (the nil map or the address of an
object), and each Go function becomes a function from a `World` to a result and
the next `World`.  Reading a nil map behaves like reading an empty map; an
assignment through a nil map panics.  The world also carries

* the answers the interactive prompter is going to give, and the log of the
  prompts that were issued,
* the log of what was printed,
* the log of the lists handed to `Save`,
* the iteration order Go picks for each `range` over a map, which the language
  leaves unspecified: it is an arbitrary permutation of the keys, one per loop.
-/

set_option linter.dupNamespace false
set_option linter.unusedVariables false

namespace cmdref

/-! ## Data model -/

/-- Command represents a command to store and query (`type Command struct`). -/
structure Command where
  Name : String
  Command : String
  Platform : String
  Description : String
deriving DecidableEq, Repr

/-- The zero value of the struct, which Go yields when a map is read at a
missing key. -/
instance : Inhabited Command := ⟨⟨"", "", "", ""⟩⟩

/-- The method `func (cmd Command) String() string`. -/
def Command_String (cmd : Command) : String :=
  "Name: " ++ cmd.Name ++ "\nDescription: " ++ cmd.Description ++
    "\nPlatform: " ++ cmd.Platform ++ "\nCommand:\n" ++ cmd.Command ++ "\n"

/-- A Go `map[string]T` value: finitely many entries with pairwise distinct
keys.  The order of the underlying list carries no meaning. -/
abbrev GoMap (T : Type) := AList (fun _ : String => T)

/-- The Go expression `m[k]`: the stored value, or the zero value. -/
def GoMap.index {T : Type} [Inhabited T] (m : GoMap T) (k : String) : T :=
  (m.lookup k).getD default

/-- The Go expression `len(m)`. -/
def GoMap.len {T : Type} (m : GoMap T) : Nat := m.entries.length

/-- The values stored in a map, in the order of the underlying list. -/
def GoMap.values {T : Type} (m : GoMap T) : List T := m.entries.map (fun e => e.2)

/-- Address of a map object. -/
abbrev Addr := Nat

/-- A value of type `map[string]Command`: the nil map, or a reference to a map
object. -/
inductive Ref where
  | nil
  | addr (a : Addr)
deriving DecidableEq, Repr

/-- How a call of a function that returns a map and an `error` ends: with a map
and a nil error, with an error and no map, or in a panic. -/
inductive Result (α : Type) where
  | ok (a : α)
  | error (err : String)
  | panic (msg : String)
deriving DecidableEq, Repr

/-- One key/value pair of a `map[string]Command`. -/
abbrev Entry := (Σ _ : String, Command)

/-- The order in which `range` visits the entries of a map.  Go leaves it
unspecified and it may change from one loop to the next, so it is a
permutation of the entries chosen per loop (loops are numbered by a counter). -/
structure RangeOrder where
  shuffle : Nat → List Entry → List Entry
  perm : ∀ n es, (shuffle n es).Perm es

/-- What the prompter answers to one prompt. -/
inductive Reply where
  | str (s : String)
  | yes (b : Bool)
  | fail (err : String)
deriving DecidableEq, Repr

/-- A prompt that was shown to the user. -/
inductive Asked where
  | select (label : String) (options : List String)
  | string (label : String)
  | confirm (label : String)
deriving DecidableEq, Repr

/-- One write to the terminal. `yellow` is a call of `color.Yellow`. -/
inductive Out where
  | text (s : String)
  | yellow (s : String)
deriving DecidableEq, Repr

/-- Everything a handler can read or change.  The map objects made so far are
those at the addresses below `next`. -/
structure World where
  heap : Addr → GoMap Command
  next : Addr
  replies : List Reply
  asked : List Asked
  stdout : List Out
  saved : List (List Command)
  order : RangeOrder
  tick : Nat

/-- The interface `CmdFileOperater`.  `Save` returns an `error`, with `none`
for `nil`.  `LoadExternal` reads and parses the file at the path it is given
(its comment in the source repeats the one of `Load`, but the body reads
`filepath`), `Load` the store file. -/
structure CmdFileOperater where
  Load : Except String (List Command)
  LoadExternal : String → Except String (List Command)
  Save : List Command → Option String
  GetFilePath : String

/-! ## Language primitives -/

/-- The content of the map value `m`: a nil map reads as the empty map. -/
def World.mapOf (w : World) (m : Ref) : GoMap Command :=
  match m with
  | .nil => ∅
  | .addr a => w.heap a

/-- The map value `m` is one the program can hold in `w`: the nil map, or a
map object made before. -/
def World.has (w : World) (m : Ref) : Prop :=
  match m with
  | .nil => True
  | .addr a => a < w.next

/-- Whether a map value can be held in a world is decidable. -/
instance (w : World) (m : Ref) : Decidable (w.has m) :=
  match m with
  | .nil => isTrue trivial
  | .addr a => inferInstanceAs (Decidable (a < w.next))

/-- The statement `make(map[string]Command)`: a new, empty map object. Its
result is never the nil map, so it is given as an address. -/
def makeMap (w : World) : Addr × World :=
  (w.next, { w with heap := Function.update w.heap w.next ∅, next := w.next + 1 })

/-- The statement `m[k] = v` for a map `m` that the function made itself. -/
def setIndex (m : Addr) (k : String) (v : Command) (w : World) : World :=
  { w with heap := Function.update w.heap m ((w.heap m).insert k v) }

/-- The statement `m[k] = v` for a map value `m` the function was given: Go
panics when `m` is the nil map. -/
def assign (m : Ref) (k : String) (v : Command) (w : World) : Except String World :=
  match m with
  | .nil => .error "assignment to entry in nil map"
  | .addr a => .ok (setIndex a k v w)

/-- The statement `delete(m, k)`; on the nil map it does nothing. -/
def deleteKey (m : Ref) (k : String) (w : World) : World :=
  match m with
  | .nil => w
  | .addr a => { w with heap := Function.update w.heap a ((w.heap a).erase k) }

/-- The entries a `range` loop over `m` is going to visit, in visiting order. -/
def rangeMap (m : Ref) (w : World) : List Entry × World :=
  (w.order.shuffle w.tick (w.mapOf m).entries, { w with tick := w.tick + 1 })

/-- A call `fmt.Print(s)` and its relatives: one write to the terminal. -/
def print (o : Out) (w : World) : World :=
  { w with stdout := w.stdout ++ [o] }

/-- The library call `sort.Strings`: the ascending rearrangement.  Go compares
strings byte by byte and Lean character by character; on UTF-8 text the two
orders agree. -/
def sortStrings (l : List String) : List String :=
  l.insertionSort (fun a b => a ≤ b)

/-! ## The prompter (external package `pkg/prompter`) -/

/-- Modelled from the spec: the prompt layer is consumed as three black-box
operations returning a chosen string, a typed string, or a boolean, each of
which may fail.  `PromptSelect` records the prompt and takes the next answer. -/
def PromptSelect (label : String) (options : List String) (w : World) :
    Except String String × World :=
  let w1 := { w with asked := w.asked ++ [Asked.select label options] }
  match w.replies with
  | Reply.str s :: rest => (.ok s, { w1 with replies := rest })
  | Reply.fail err :: rest => (.error err, { w1 with replies := rest })
  | _ :: rest => (.error "invalid input", { w1 with replies := rest })
  | [] => (.error "EOF", w1)

/-- Modelled from the spec: the free-text prompt of the prompt layer. -/
def PromptString (label : String) (w : World) : Except String String × World :=
  let w1 := { w with asked := w.asked ++ [Asked.string label] }
  match w.replies with
  | Reply.str s :: rest => (.ok s, { w1 with replies := rest })
  | Reply.fail err :: rest => (.error err, { w1 with replies := rest })
  | _ :: rest => (.error "invalid input", { w1 with replies := rest })
  | [] => (.error "EOF", w1)

/-- Modelled from the spec: the yes/no prompt of the prompt layer. -/
def PromptConfirm (label : String) (w : World) : Except String Bool × World :=
  let w1 := { w with asked := w.asked ++ [Asked.confirm label] }
  match w.replies with
  | Reply.yes b :: rest => (.ok b, { w1 with replies := rest })
  | Reply.fail err :: rest => (.error err, { w1 with replies := rest })
  | _ :: rest => (.error "invalid input", { w1 with replies := rest })
  | [] => (.error "EOF", w1)

/-! ## The functions of `cmdref.go` -/

/-- Action represents any action supported by the app (`type Action int`). -/
abbrev Action := Int

def Create : Action := 0
def Update : Action := 1
def Remove : Action := 2
def View : Action := 3
def Import : Action := 4
def Exit : Action := 5

/-- The function `copyMap`, at the only type it is used at.  The map it returns
is the one it made, given as an address. -/
def copyMap (m : Ref) (w : World) : Addr × World :=
  match makeMap w with
  | (newMap, w) =>
  match rangeMap m w with
  | (es, w) => (newMap, es.foldl (fun w e => setIndex newMap e.1 e.2 w) w)

/-- The function `keys`, at the only type it is used at. -/
def keys (m : Ref) (w : World) : List String × World :=
  match rangeMap m w with
  | (es, w) => (es.foldl (fun entries e => entries ++ [e.1]) [], w)

/-- The function `updateFile`: collect the values and hand them to `Save`. -/
def updateFile (cmdMap : Ref) (fileOps : CmdFileOperater) (w : World) :
    Option String × World :=
  match rangeMap cmdMap w with
  | (es, w) =>
  let commands := es.foldl (fun commands e => commands ++ [e.2]) []
  (fileOps.Save commands, { w with saved := w.saved ++ [commands] })

def createCommandWithName (name : String) (w : World) : Except String Command × World :=
  match PromptString "Command" w with
  | (.error err, w) => (.error err, w)
  | (.ok command, w) =>
  match PromptString "Platform" w with
  | (.error err, w) => (.error err, w)
  | (.ok platform, w) =>
  match PromptString "Description" w with
  | (.error err, w) => (.error err, w)
  | (.ok description, w) =>
  (.ok { Name := name, Command := command, Platform := platform,
         Description := description }, w)

def createCommand (w : World) : Except String Command × World :=
  match PromptString "Command name" w with
  | (.error err, w) => (.error err, w)
  | (.ok name, w) => createCommandWithName name w

/-- CreateHandler handles the creation of a new command. -/
def CreateHandler (cmdMap : Ref) (w : World) : Result Ref × World :=
  match createCommand w with
  | (.error err, w) => (.error err, w)
  | (.ok cmd, w) =>
  match copyMap cmdMap w with
  | (newMap, w) => (.ok (.addr newMap), setIndex newMap cmd.Name cmd w)

/-- UpdateHandler handles the update action. -/
def UpdateHandler (cmdMap : Ref) (w : World) : Result Ref × World :=
  if (w.mapOf cmdMap).len = 0 then
    (.ok cmdMap, print (.text "No existing commands.\n") w)
  else
  match keys cmdMap w with
  | (entries, w) =>
  match PromptSelect "Select a command to update" entries w with
  | (.error err, w) => (.error err, w)
  | (.ok selection, w) =>
  match createCommandWithName selection
      (print (.text (Command_String ((w.mapOf cmdMap).index selection))) w) with
  | (.error err, w) => (.error err, w)
  | (.ok cmd, w) =>
  match copyMap cmdMap w with
  | (newMap, w) => (.ok (.addr newMap), setIndex newMap selection cmd w)

/-- DeleteHandler handles the delete action. -/
def DeleteHandler (cmdMap : Ref) (w : World) : Result Ref × World :=
  match keys cmdMap w with
  | (entries, w) =>
  if (w.mapOf cmdMap).len = 0 then
    (.ok cmdMap, print (.text "No commands to delete\n") w)
  else
  match PromptSelect "Select command to delete" entries w with
  | (.error err, w) => (.error err, w)
  | (.ok selection, w) =>
  match PromptConfirm ("Are you sure you want to delete \x27" ++ selection ++ "\x27")
      (print (.text (Command_String ((w.mapOf cmdMap).index selection) ++ "\n")) w) with
  | (.error err, w) =>
    (.error ("error while prompting delete confirmation - " ++ err), w)
  | (.ok confirm, w) =>
  match copyMap cmdMap (if confirm then deleteKey cmdMap selection w else w) with
  | (newMap, w) => (.ok (.addr newMap), w)

/-- The loop of `ViewHandler`: one label per visited name, and the table from
label back to name (a map local to the function). -/
def viewEntries (cmdMap : GoMap Command) (es : List Entry) :
    List String × GoMap String :=
  es.foldl (fun acc e =>
      let name := e.1
      let entryName := (cmdMap.index name).Platform ++ " - " ++ name
      (acc.1 ++ [entryName], acc.2.insert entryName name)) ([], ∅)

/-- ViewHandler handles viewing commands. -/
def ViewHandler (cmdMap : Ref) (w : World) : Option String × World :=
  if (w.mapOf cmdMap).len = 0 then
    (none, print (.text "No existing commands found\n") w)
  else
  match rangeMap cmdMap w with
  | (es, w) =>
  match viewEntries (w.mapOf cmdMap) es with
  | (entries, entryToCommandName) =>
  match PromptSelect "Select a command" (sortStrings entries) w with
  | (.error err, w) => (some err, w)
  | (.ok selectedItem, w) =>
  let cmd := (w.mapOf cmdMap).index (entryToCommandName.index selectedItem)
  (none,
    print (.text "\n")
      (print (.yellow cmd.Command)
        (print (.text ("Name: " ++ cmd.Name ++ "\nDescription: " ++ cmd.Description ++
          "\nPlatform: " ++ cmd.Platform ++ "\nCommand:\n")) w)))

/-- ImportHandler loads the commands from the given path, and either merges or
replaces the command map with new commands.  The merge loop assigns through
the map it was given: on the nil map its first assignment panics, before
anything was written. -/
def ImportHandler (fpath : String) (isMerge : Bool) (cmdMap : Ref)
    (fileOps : CmdFileOperater) (w : World) : Result Ref × World :=
  match fileOps.LoadExternal fpath with
  | .error err => (.error err, w)
  | .ok newCmds =>
  if isMerge then
    match newCmds.foldlM (fun w cmd => assign cmdMap cmd.Name cmd w) w with
    | .error msg => (.panic msg, w)
    | .ok w => (.ok cmdMap, w)
  else
  match makeMap w with
  | (newMap, w) =>
    (.ok (.addr newMap), newCmds.foldl (fun w cmd => setIndex newMap cmd.Name cmd w) w)

/-- LoadCommands reads existing commands from the commands file. -/
def LoadCommands (fileOps : CmdFileOperater) (w : World) : Result Ref × World :=
  match makeMap w with
  | (cmdMap, w) =>
  match fileOps.Load with
  | .error err => (.error err, w)
  | .ok commands =>
    (.ok (.addr cmdMap),
      commands.foldl (fun w command => setIndex cmdMap command.Name command w) w)

/-- The tail shared by the saving branches of `ProcessAction`. -/
def saveResult (newMap : Ref) (fileOps : CmdFileOperater) (w : World) :
    Result Ref × World :=
  match updateFile newMap fileOps w with
  | (some err, w) => (.error err, w)
  | (none, w) => (.ok newMap, w)

/-- ProcessAction takes the command map and an action to invoke the action.
A panic of a handler passes through it. -/
def ProcessAction (cmdMap : Ref) (action : Action) (fileOps : CmdFileOperater)
    (w : World) : Result Ref × World :=
  if action = Create then
    match CreateHandler cmdMap w with
    | (.error err, w) => (.error err, w)
    | (.panic msg, w) => (.panic msg, w)
    | (.ok newMap, w) => saveResult newMap fileOps w
  else if action = View then
    match ViewHandler cmdMap w with
    | (some err, w) => (.error err, w)
    | (none, w) => (.ok cmdMap, w)
  else if action = Update then
    match UpdateHandler cmdMap w with
    | (.error err, w) => (.error err, w)
    | (.panic msg, w) => (.panic msg, w)
    | (.ok newMap, w) => saveResult newMap fileOps w
  else if action = Remove then
    match DeleteHandler cmdMap w with
    | (.error err, w) => (.error err, w)
    | (.panic msg, w) => (.panic msg, w)
    | (.ok newMap, w) => saveResult newMap fileOps w
  else if action = Import then
    match PromptString "Enter the absolute file path for the commands you want to import" w with
    | (.error err, w) => (.error err, w)
    | (.ok f, w) =>
    match PromptConfirm "Do you want to merge the new commands with existing commands?" w with
    | (.error err, w) => (.error err, w)
    | (.ok isMerge, w) =>
    match ImportHandler f isMerge cmdMap fileOps w with
    | (.error err, w) => (.error err, w)
    | (.panic msg, w) => (.panic msg, w)
    | (.ok cmdMap, w) => saveResult cmdMap fileOps w
  else
    (.error "unrecognized action", w)

/-! ## Vocabulary of the statements -/

/-- The map value reached from `m` by the assignments `m[c.Name] = c`, one per
element of `E`, in list order. -/
def upsertAll (m : GoMap Command) (E : List Command) : GoMap Command :=
  E.foldl (fun m c => m.insert c.Name c) m

/-- The last element of `E` whose `Name` is `n`, if there is one. -/
def lastNamed (E : List Command) (n : String) : Option Command :=
  (E.filter (fun e => e.Name = n)).getLast?

/-- The map value reached from `m` by the assignments `m[e.1] = e.2`, one
per element of `es`, in list order. -/
def insertAll (m : GoMap Command) (es : List Entry) : GoMap Command :=
  es.foldl (fun m e => m.insert e.1 e.2) m

/-- The entry under which a command is stored: its name and the command. -/
def toEntry (c : Command) : Entry := ⟨c.Name, c⟩

/-- The label `ViewHandler` shows for the entry stored under `name`. -/
def viewLabel (cmdMap : GoMap Command) (name : String) : String :=
  (cmdMap.index name).Platform ++ " - " ++ name

/-- The label built from an entry: its platform, a separator and its name. -/
def entryLabel (e : Entry) : String := e.2.Platform ++ " - " ++ e.1

/-- What `ViewHandler` writes for the record `cmd`. -/
def viewRecord (cmd : Command) : List Out :=
  [.text ("Name: " ++ cmd.Name ++ "\nDescription: " ++ cmd.Description ++
      "\nPlatform: " ++ cmd.Platform ++ "\nCommand:\n"),
   .yellow cmd.Command, .text "\n"]

/-- Between `w` and `w2` no map object was written or created and nothing was
saved: only prompts, prints and loop counters may differ. -/
def Untouched (w w2 : World) : Prop :=
  w2.heap = w.heap ∧ w2.next = w.next ∧ w2.saved = w.saved

/-- Between `w` and `w2` every map object that existed in `w` has kept its
entries, and nothing was saved. New map objects may have been created. -/
def Kept (w w2 : World) : Prop :=
  w2.saved = w.saved ∧ w.next ≤ w2.next ∧ ∀ a, a < w.next → w2.heap a = w.heap a

/-- The list `updateFile` collects from the map `m` in the world `w`. -/
def savedList (w : World) (m : Ref) : List Command :=
  (w.order.shuffle w.tick (w.mapOf m).entries).map (fun e => e.2)

/-- What `ProcessAction` has to do, started in `w`, once the handler of a saving
action has returned `h`, for `out` to be its outcome.  If the handler returned
a mapping: `Save` was called exactly once since `w`, on a list `S` holding the
values of that mapping, one per key, and no map object was touched after the
handler; the outcome is the mapping if `Save` returned no error and that error
otherwise.  If the handler failed: the outcome is the error of the handler in
the world the handler left, and `Save` was not called since `w`; likewise when
the handler panicked. -/
def PersistsAfter (fileOps : CmdFileOperater) (w : World)
    (h out : Result Ref × World) : Prop :=
  match h.1 with
  | .ok newMap =>
    ∃ S, S.Perm (h.2.mapOf newMap).values ∧ out.2.saved = w.saved ++ [S] ∧
      out.2.heap = h.2.heap ∧
      out.1 = (match fileOps.Save S with
        | none => .ok newMap
        | some err => .error err)
  | .error err => out = (.error err, h.2) ∧ out.2.saved = w.saved
  | .panic msg => out = (.panic msg, h.2) ∧ out.2.saved = w.saved

/-- The identity iteration order. -/
def orderId : RangeOrder := ⟨fun _ ks => ks, fun _ _ => List.Perm.refl _⟩

/-- The iteration order that visits the keys back to front. -/
def orderRev : RangeOrder := ⟨fun _ ks => ks.reverse, fun _ ks => List.reverse_perm ks⟩

/-- A world with the given map objects at addresses `0, 1, ...` and the given
pending answers. -/
def mkWorld (maps : List (GoMap Command)) (replies : List Reply) (order : RangeOrder) :
    World :=
  { heap := fun r => maps.getD r ∅, next := maps.length, replies := replies,
    asked := [], stdout := [], saved := [], order := order, tick := 0 }

/-- A file-operations value whose loads return `L` and whose saves succeed. -/
def opsReturning (L : List Command) : CmdFileOperater :=
  { Load := .ok L, LoadExternal := fun _ => .ok L, Save := fun _ => none,
    GetFilePath := "cmdref.json" }

/-- A file-operations value whose loads fail with `err`. -/
def opsFailing (err : String) : CmdFileOperater :=
  { Load := .error err, LoadExternal := fun _ => .error err, Save := fun _ => some err,
    GetFilePath := "cmdref.json" }

def cmdLs : Command := ⟨"ls-all", "ls -la", "mac", "list all files"⟩
def cmdLs2 : Command := ⟨"ls-all", "dir", "windows", "list files"⟩
def cmdPs : Command := ⟨"ps", "ps aux", "linux", "processes"⟩
def cmdTop : Command := ⟨"top", "top -o cpu", "mac", "monitor"⟩

/-- An external list in which the name `ls-all` occurs twice. -/
def extList : List Command := [cmdLs, cmdTop, cmdLs2]

/-- Two entries whose labels coincide: platform `a - a` with name `b`, and
platform `a` with name `a - b`. -/
def mapClash : GoMap Command :=
  ((∅ : GoMap Command).insert "b" ⟨"b", "first", "a - a", ""⟩).insert "a - b"
    ⟨"a - b", "second", "a", ""⟩

/-- The map of the scenario in the specification, plus one more entry. -/
def mapTwo : GoMap Command := ((∅ : GoMap Command).insert "ls-all" cmdLs).insert "ps" cmdPs

/-! ## Lemmas on the language primitives -/

theorem upsertAll_concat (m : GoMap Command) (E : List Command) (e : Command) :
    upsertAll m (E ++ [e]) = (upsertAll m E).insert e.Name e := by
  simp [upsertAll, List.foldl_append]

theorem lastNamed_concat (E : List Command) (e : Command) (n : String) :
    lastNamed (E ++ [e]) n = if e.Name = n then some e else lastNamed E n := by
  unfold lastNamed
  by_cases h : e.Name = n
  · simp [List.filter_append, h, List.filter_cons]
  · simp [List.filter_append, h, List.filter_cons]

theorem lastNamed_isSome (E : List Command) (n : String) :
    (∃ e ∈ E, e.Name = n) → ∃ c, lastNamed E n = some c ∧ c ∈ E ∧ c.Name = n := by
  intro h
  have hne : E.filter (fun e => decide (e.Name = n)) ≠ [] := by
    obtain ⟨e, he, hn⟩ := h
    exact List.ne_nil_of_mem (List.mem_filter.mpr ⟨he, by simpa using hn⟩)
  refine ⟨(E.filter (fun e => decide (e.Name = n))).getLast hne, ?_, ?_, ?_⟩
  · simp [lastNamed, List.getLast?_eq_getLast, hne]
  · exact (List.mem_filter.mp (List.getLast_mem hne)).1
  · simpa using (List.mem_filter.mp (List.getLast_mem hne)).2

theorem mem_upsertAll (m : GoMap Command) (E : List Command) (k : String) :
    k ∈ upsertAll m E ↔ k ∈ m ∨ ∃ e ∈ E, e.Name = k := by
  induction E using List.reverseRecOn with
  | nil => simp [upsertAll]
  | append_singleton E e ih =>
    rw [upsertAll_concat, AList.mem_insert, ih]
    simp only [List.mem_append, List.mem_singleton]
    constructor
    · rintro (h | h | ⟨c, hc, hn⟩)
      · exact Or.inr ⟨e, Or.inr rfl, h.symm⟩
      · exact Or.inl h
      · exact Or.inr ⟨c, Or.inl hc, hn⟩
    · rintro (h | ⟨c, hc | hc, hn⟩)
      · exact Or.inr (Or.inl h)
      · exact Or.inr (Or.inr ⟨c, hc, hn⟩)
      · subst hc; exact Or.inl hn.symm

theorem lookup_upsertAll (m : GoMap Command) (E : List Command) (k : String) :
    (upsertAll m E).lookup k = (lastNamed E k).or (m.lookup k) := by
  induction E using List.reverseRecOn with
  | nil => simp [upsertAll, lastNamed]
  | append_singleton E e ih =>
    rw [upsertAll_concat, lastNamed_concat]
    by_cases h : e.Name = k
    · subst h; simp [AList.lookup_insert]
    · rw [AList.lookup_insert_ne (fun hk => h hk.symm), ih]; simp [h]

theorem foldl_setIndex (r : Addr) (E : List Command) (w : World) :
    E.foldl (fun w cmd => setIndex r cmd.Name cmd w) w =
      { w with heap := Function.update w.heap r (upsertAll (w.heap r) E) } := by
  induction E generalizing w with
  | nil => simp [upsertAll]
  | cons e E ih =>
    rw [List.foldl_cons, ih]
    simp [setIndex, upsertAll]

theorem foldl_setIndex_entries (r : Addr) (es : List Entry) (w : World) :
    es.foldl (fun w e => setIndex r e.1 e.2 w) w =
      { w with heap := Function.update w.heap r (insertAll (w.heap r) es) } := by
  induction es generalizing w with
  | nil => simp [insertAll]
  | cons e es ih =>
    rw [List.foldl_cons, ih]
    simp [setIndex, insertAll]

theorem perm_of_lookup_eq {T : Type} (A B : GoMap T) (h : ∀ k, A.lookup k = B.lookup k) :
    A.entries.Perm B.entries := by
  apply List.lookup_ext A.nodupKeys B.nodupKeys
  intro x y
  have hx := h x
  simp only [AList.lookup] at hx
  rw [hx]

theorem insertAll_concat (m : GoMap Command) (es : List Entry) (e : Entry) :
    insertAll m (es ++ [e]) = (insertAll m es).insert e.1 e.2 := by
  simp [insertAll, List.foldl_append]

theorem lookup_insertAll (es : List Entry) (nd : es.NodupKeys) (k : String) :
    (insertAll ∅ es).lookup k = es.dlookup k := by
  induction es using List.reverseRecOn with
  | nil => simp [insertAll]
  | append_singleton es e ih =>
    obtain ⟨a, b⟩ := e
    have nd1 : es.NodupKeys := by
      have := List.NodupKeys.sublist (List.sublist_append_left es [⟨a, b⟩]) nd
      exact this
    have ha : a ∉ es.keys := by
      intro hmem
      have hnd : (es ++ [(⟨a, b⟩ : Entry)]).keys.Nodup := nd
      rw [List.keys, List.map_append] at hnd
      exact (List.nodup_append.mp hnd).2.2 hmem (List.mem_singleton.mpr rfl)
    rw [insertAll_concat, List.dlookup_append]
    by_cases hk : k = a
    · subst hk
      simp [AList.lookup_insert, List.dlookup_eq_none.mpr ha]
    · have h2 : List.dlookup k [(⟨a, b⟩ : Entry)] = none := by
        rw [List.dlookup_cons_ne [] (⟨a, b⟩ : Entry) hk]; rfl
      rw [AList.lookup_insert_ne hk, ih nd1, h2]
      simp

theorem insertAll_perm (m : GoMap Command) (es : List Entry) (h : es.Perm m.entries) :
    (insertAll ∅ es).entries.Perm m.entries := by
  have nd : es.NodupKeys := (List.perm_nodupKeys h).mpr m.nodupKeys
  refine List.Perm.trans ?_ h
  apply List.lookup_ext (insertAll ∅ es).nodupKeys nd
  intro x y
  have := lookup_insertAll es nd x
  simp only [AList.lookup] at this
  rw [this]

theorem mapOf_nil (w : World) : w.mapOf .nil = ∅ := rfl

theorem mapOf_addr (w : World) (a : Addr) : w.mapOf (.addr a) = w.heap a := rfl

/-- The content of a map value depends on the heap only. -/
theorem mapOf_congr {w w2 : World} (h : w2.heap = w.heap) (m : Ref) :
    w2.mapOf m = w.mapOf m := by
  cases m with
  | nil => rfl
  | addr a => simp [World.mapOf, h]

theorem mapOf_tick (w : World) (m : Ref) :
    World.mapOf { w with tick := w.tick + 1 } m = w.mapOf m :=
  mapOf_congr rfl m

theorem copyMap_eq (m : Ref) (w : World) (h : m ≠ .addr w.next) :
    copyMap m w =
      (w.next,
        { w with
          heap := (Function.update w.heap w.next
            (insertAll ∅ (w.order.shuffle w.tick (w.mapOf m).entries))),
          next := w.next + 1, tick := w.tick + 1 }) := by
  cases m with
  | nil => simp [copyMap, makeMap, rangeMap, foldl_setIndex_entries, World.mapOf]
  | addr a =>
    have ha : a ≠ w.next := fun h2 => h (by rw [h2])
    simp [copyMap, makeMap, rangeMap, foldl_setIndex_entries, World.mapOf,
      Function.update_noteq ha]

theorem keys_fold (es : List Entry) (acc : List String) :
    es.foldl (fun entries e => entries ++ [e.1]) acc = acc ++ es.map (fun e => e.1) := by
  induction es generalizing acc with
  | nil => simp
  | cons a es ih => simp [ih]

theorem keys_eq (m : Ref) (w : World) :
    keys m w = ((w.order.shuffle w.tick (w.mapOf m).entries).map (fun e => e.1),
      { w with tick := w.tick + 1 }) := by
  simp [keys, rangeMap, keys_fold]

theorem values_fold (es : List Entry) (acc : List Command) :
    es.foldl (fun commands e => commands ++ [e.2]) acc = acc ++ es.map (fun e => e.2) := by
  induction es generalizing acc with
  | nil => simp
  | cons a es ih => simp [ih]

theorem updateFile_eq (r : Ref) (fileOps : CmdFileOperater) (w : World) :
    updateFile r fileOps w =
      (fileOps.Save ((w.order.shuffle w.tick (w.mapOf r).entries).map (fun e => e.2)),
        { w with
          tick := w.tick + 1,
          saved := w.saved ++
            [(w.order.shuffle w.tick (w.mapOf r).entries).map (fun e => e.2)] }) := by
  simp [updateFile, rangeMap, values_fold]

theorem len_insert {T : Type} (m : GoMap T) (k : String) (v : T) :
    GoMap.len (m.insert k v) = if k ∈ m then m.len else m.len + 1 := by
  unfold GoMap.len
  rw [AList.insert_entries, List.length_cons]
  by_cases h : k ∈ m
  · obtain ⟨b, l₁, l₂, _, h2, h3⟩ := List.exists_of_kerase (AList.mem_keys.mp h)
    rw [if_pos h, h3, h2]
    simp
    omega
  · rw [if_neg h, List.kerase_of_not_mem_keys (fun hk => h (AList.mem_keys.mpr hk))]

theorem len_erase {T : Type} (m : GoMap T) (k : String) (h : k ∈ m) :
    GoMap.len (m.erase k) + 1 = m.len := by
  unfold GoMap.len
  obtain ⟨b, l₁, l₂, _, h2, h3⟩ := List.exists_of_kerase (AList.mem_keys.mp h)
  have : (m.erase k).entries = m.entries.kerase k := rfl
  rw [this, h3, h2]
  simp
  omega

theorem len_eq_of_perm {T : Type} (A B : GoMap T) (h : A.entries.Perm B.entries) :
    A.len = B.len := h.length_eq

/-- The merge loop on a map object: every assignment succeeds. -/
theorem foldlM_assign_addr (a : Addr) (E : List Command) (w : World) :
    E.foldlM (fun w cmd => assign (.addr a) cmd.Name cmd w) w =
      .ok (E.foldl (fun w cmd => setIndex a cmd.Name cmd w) w) := by
  induction E generalizing w with
  | nil => rfl
  | cons e E ih =>
    rw [List.foldlM_cons, List.foldl_cons, ← ih]
    rfl

/-- The merge loop on the nil map: the first assignment panics. -/
theorem foldlM_assign_nil (e : Command) (E : List Command) (w : World) :
    (e :: E).foldlM (fun w cmd => assign .nil cmd.Name cmd w) w =
      .error "assignment to entry in nil map" := by
  rw [List.foldlM_cons]
  rfl

theorem ImportHandler_merge_eq (w : World) (a : Addr) (fpath : String)
    (fileOps : CmdFileOperater) (E : List Command) (hE : fileOps.LoadExternal fpath = .ok E) :
    ImportHandler fpath true (.addr a) fileOps w =
      (.ok (.addr a),
        { w with heap := Function.update w.heap a (upsertAll (w.heap a) E) }) := by
  simp [ImportHandler, hE, foldlM_assign_addr, foldl_setIndex]

theorem ImportHandler_merge_empty (w : World) (cmdMap : Ref) (fpath : String)
    (fileOps : CmdFileOperater) (hE : fileOps.LoadExternal fpath = .ok []) :
    ImportHandler fpath true cmdMap fileOps w = (.ok cmdMap, w) := by
  simp only [ImportHandler, hE, if_true, List.foldlM_nil]
  rfl

theorem ImportHandler_merge_nil (w : World) (fpath : String) (fileOps : CmdFileOperater)
    (e : Command) (E : List Command) (hE : fileOps.LoadExternal fpath = .ok (e :: E)) :
    ImportHandler fpath true .nil fileOps w =
      (.panic "assignment to entry in nil map", w) := by
  simp only [ImportHandler, hE, if_true]
  rw [foldlM_assign_nil]

theorem ImportHandler_replace_eq (w : World) (cmdMap : Ref) (fpath : String)
    (fileOps : CmdFileOperater) (E : List Command) (hE : fileOps.LoadExternal fpath = .ok E) :
    ImportHandler fpath false cmdMap fileOps w =
      (.ok (.addr w.next),
        { w with heap := Function.update w.heap w.next (upsertAll ∅ E),
                 next := w.next + 1 }) := by
  simp [ImportHandler, hE, foldl_setIndex, makeMap]


/-! ## Lemmas on prompts and handlers -/

theorem Untouched.same (w : World) : Untouched w w := ⟨rfl, rfl, rfl⟩

theorem Untouched.chain {w w1 w2 : World} (h1 : Untouched w w1) (h2 : Untouched w1 w2) :
    Untouched w w2 :=
  ⟨h2.1.trans h1.1, h2.2.1.trans h1.2.1, h2.2.2.trans h1.2.2⟩

theorem PromptString_frame (label : String) (w : World) :
    Untouched w (PromptString label w).2 := by
  unfold PromptString Untouched
  split <;> simp

theorem PromptSelect_frame (label : String) (options : List String) (w : World) :
    Untouched w (PromptSelect label options w).2 := by
  unfold PromptSelect Untouched
  split <;> simp

theorem PromptConfirm_frame (label : String) (w : World) :
    Untouched w (PromptConfirm label w).2 := by
  unfold PromptConfirm Untouched
  split <;> simp

theorem print_frame (o : Out) (w : World) : Untouched w (print o w) := ⟨rfl, rfl, rfl⟩

theorem keys_frame (m : Ref) (w : World) : Untouched w (keys m w).2 := by
  rw [keys_eq]; exact ⟨rfl, rfl, rfl⟩

theorem createCommandWithName_frame (name : String) (w : World) :
    Untouched w (createCommandWithName name w).2 := by
  unfold createCommandWithName
  rcases h1 : PromptString "Command" w with ⟨r1, w1⟩
  have f1 := PromptString_frame "Command" w
  rw [h1] at f1
  cases r1 with
  | error e => exact f1
  | ok c =>
    simp only []
    rcases h2 : PromptString "Platform" w1 with ⟨r2, w2⟩
    have f2 := PromptString_frame "Platform" w1
    rw [h2] at f2
    cases r2 with
    | error e => exact f1.chain f2
    | ok c2 =>
      simp only []
      rcases h3 : PromptString "Description" w2 with ⟨r3, w3⟩
      have f3 := PromptString_frame "Description" w2
      rw [h3] at f3
      cases r3 with
      | error e => exact (f1.chain f2).chain f3
      | ok c3 => exact (f1.chain f2).chain f3

theorem createCommand_frame (w : World) : Untouched w (createCommand w).2 := by
  unfold createCommand
  rcases h1 : PromptString "Command name" w with ⟨r1, w1⟩
  have f1 := PromptString_frame "Command name" w
  rw [h1] at f1
  cases r1 with
  | error e => exact f1
  | ok c => exact f1.chain (createCommandWithName_frame c w1)

theorem createCommandWithName_ok (name x p d : String) (rest : List Reply) (w : World)
    (h : w.replies = .str x :: .str p :: .str d :: rest) :
    createCommandWithName name w =
      (.ok ⟨name, x, p, d⟩,
        { w with
          replies := rest,
          asked := w.asked ++
            [.string "Command", .string "Platform", .string "Description"] }) := by
  simp [createCommandWithName, PromptString, h]

theorem createCommand_ok (n x p d : String) (rest : List Reply) (w : World)
    (h : w.replies = .str n :: .str x :: .str p :: .str d :: rest) :
    createCommand w =
      (.ok ⟨n, x, p, d⟩,
        { w with
          replies := rest,
          asked := w.asked ++
            [.string "Command name", .string "Command", .string "Platform",
             .string "Description"] }) := by
  simp [createCommand, createCommandWithName, PromptString, h]

theorem mapOf_of_untouched {w w1 : World} (h : Untouched w w1) (m : Ref) :
    w1.mapOf m = w.mapOf m :=
  mapOf_congr h.1 m

theorem ne_next_of_has {w : World} {m : Ref} (h : w.has m) : m ≠ .addr w.next := by
  cases m with
  | nil => exact fun h2 => by cases h2
  | addr a =>
    intro h2
    cases h2
    exact Nat.lt_irrefl _ h

/-- A copy made by `copyMap` holds the entries of the original, the original
and every other map object are as before, and nothing is saved. -/
theorem copyMap_spec (m : Ref) (w : World) (h : w.has m) :
    (copyMap m w).1 = w.next ∧
    ((copyMap m w).2.heap w.next).entries.Perm (w.mapOf m).entries ∧
    (∀ r, r ≠ w.next → (copyMap m w).2.heap r = w.heap r) ∧
    (copyMap m w).2.next = w.next + 1 ∧
    (copyMap m w).2.saved = w.saved ∧
    (copyMap m w).2.replies = w.replies ∧
    (copyMap m w).2.asked = w.asked ∧
    (copyMap m w).2.stdout = w.stdout := by
  rw [copyMap_eq m w (ne_next_of_has h)]
  refine ⟨rfl, ?_, ?_, rfl, rfl, rfl, rfl, rfl⟩
  · simp only [Function.update_same]
    exact insertAll_perm _ _ (w.order.perm _ _)
  · intro r hr
    simp [Function.update_noteq hr]

theorem len_ne_zero_of_mem {T : Type} (m : GoMap T) (k : String) (h : k ∈ m) :
    m.len ≠ 0 := by
  have := len_erase m k h
  omega

theorem UpdateHandler_ok (w : World) (cmdMap : Ref) (s x p d : String) (rest : List Reply)
    (hs : s ∈ w.mapOf cmdMap)
    (hr : w.replies = .str s :: .str x :: .str p :: .str d :: rest) :
    ∃ w1, Untouched w w1 ∧
      UpdateHandler cmdMap w =
        (.ok (.addr (copyMap cmdMap w1).1),
          setIndex (copyMap cmdMap w1).1 s ⟨s, x, p, d⟩ (copyMap cmdMap w1).2) := by
  refine ⟨{ w with
      tick := w.tick + 1, replies := rest,
      asked := w.asked ++
        [Asked.select "Select a command to update"
          ((w.order.shuffle w.tick (w.mapOf cmdMap).entries).map (fun e => e.1)),
         .string "Command", .string "Platform", .string "Description"],
      stdout := w.stdout ++ [Out.text (Command_String ((w.mapOf cmdMap).index s))] },
    ⟨rfl, rfl, rfl⟩, ?_⟩
  unfold UpdateHandler
  rw [if_neg (len_ne_zero_of_mem _ s hs)]
  simp [keys_eq, PromptSelect, hr, print, createCommandWithName, PromptString, World.mapOf]

theorem DeleteHandler_ok (w : World) (cmdMap : Ref) (s : String) (b : Bool)
    (rest : List Reply) (hs : s ∈ w.mapOf cmdMap)
    (hr : w.replies = .str s :: .yes b :: rest) :
    ∃ w1, Untouched w w1 ∧
      DeleteHandler cmdMap w =
        (.ok (.addr (copyMap cmdMap (if b then deleteKey cmdMap s w1 else w1)).1),
          (copyMap cmdMap (if b then deleteKey cmdMap s w1 else w1)).2) := by
  refine ⟨{ w with
      tick := w.tick + 1, replies := rest,
      asked := w.asked ++
        [Asked.select "Select command to delete"
          ((w.order.shuffle w.tick (w.mapOf cmdMap).entries).map (fun e => e.1)),
         .confirm ("Are you sure you want to delete \x27" ++ s ++ "\x27")],
      stdout := w.stdout ++
        [Out.text (Command_String ((w.mapOf cmdMap).index s) ++ "\n")] },
    ⟨rfl, rfl, rfl⟩, ?_⟩
  unfold DeleteHandler
  rw [keys_eq]
  simp only []
  rw [if_neg (by rw [mapOf_congr rfl cmdMap]; exact len_ne_zero_of_mem _ s hs)]
  simp [PromptSelect, PromptConfirm, hr, print, World.mapOf]

theorem upsertAll_eq_insertAll (m : GoMap Command) (E : List Command) :
    upsertAll m E = insertAll m (E.map toEntry) := by
  simp [upsertAll, insertAll, List.foldl_map, toEntry]

theorem insertAll_perm_self (es : List Entry) (nd : es.NodupKeys) :
    (insertAll ∅ es).entries.Perm es := by
  apply List.lookup_ext (insertAll ∅ es).nodupKeys nd
  intro x y
  have := lookup_insertAll es nd x
  simp only [AList.lookup] at this
  rw [this]

theorem nodupKeys_map_toEntry (L : List Command) (nd : (L.map (fun c => c.Name)).Nodup) :
    (L.map toEntry).NodupKeys := by
  unfold List.NodupKeys List.keys
  rw [List.map_map]
  exact nd

/-- The map built from a list with pairwise distinct names stores exactly the
elements of the list. -/
theorem upsertAll_values_perm (L : List Command) (nd : (L.map (fun c => c.Name)).Nodup) :
    (upsertAll ∅ L).values.Perm L := by
  rw [upsertAll_eq_insertAll]
  have h := (insertAll_perm_self (L.map toEntry) (nodupKeys_map_toEntry L nd)).map
    (fun e => e.2)
  rw [List.map_map] at h
  have hid : L.map ((fun e : Entry => e.2) ∘ toEntry) = L := by
    simp [Function.comp_def, toEntry]
  rw [hid] at h
  exact h

theorem upsertAll_perm_of_perm (S L : List Command) (h : S.Perm L)
    (nd : (L.map (fun c => c.Name)).Nodup) :
    (upsertAll ∅ S).entries.Perm (upsertAll ∅ L).entries := by
  have ndS : (S.map (fun c => c.Name)).Nodup := (h.map _).nodup_iff.mpr nd
  rw [upsertAll_eq_insertAll, upsertAll_eq_insertAll]
  exact ((insertAll_perm_self _ (nodupKeys_map_toEntry S ndS)).trans (h.map toEntry)).trans
    (insertAll_perm_self _ (nodupKeys_map_toEntry L nd)).symm

theorem LoadCommands_eq (w : World) (fileOps : CmdFileOperater) (L : List Command)
    (hL : fileOps.Load = .ok L) :
    LoadCommands fileOps w =
      (.ok (.addr w.next),
        { w with heap := Function.update w.heap w.next (upsertAll ∅ L),
                 next := w.next + 1 }) := by
  simp [LoadCommands, hL, foldl_setIndex, makeMap]

theorem Kept.still (w : World) : Kept w w := ⟨rfl, Nat.le_refl _, fun _ _ => rfl⟩

theorem Kept.chainKept {w w1 w2 : World} (h1 : Kept w w1) (h2 : Kept w1 w2) : Kept w w2 :=
  ⟨h2.1.trans h1.1, Nat.le_trans h1.2.1 h2.2.1,
    fun r hr => (h2.2.2 r (Nat.lt_of_lt_of_le hr h1.2.1)).trans (h1.2.2 r hr)⟩

theorem Untouched.kept {w w1 : World} (h : Untouched w w1) : Kept w w1 :=
  ⟨h.2.2, Nat.le_of_eq h.2.1.symm, fun r _ => by rw [h.1]⟩

theorem mapOf_of_kept {w w2 : World} (h : Kept w w2) (m : Ref) (hm : w.has m) :
    w2.mapOf m = w.mapOf m := by
  cases m with
  | nil => rfl
  | addr a => exact h.2.2 a hm

theorem copyMap_kept (m : Ref) (w : World) :
    Kept w (copyMap m w).2 ∧ (copyMap m w).1 = w.next ∧ (copyMap m w).2.next = w.next + 1 := by
  have e : copyMap m w =
      (w.next,
        { w with
          heap := (Function.update w.heap w.next
            (insertAll ∅ (w.order.shuffle w.tick
              (World.mapOf (makeMap w).2 m).entries))),
          next := w.next + 1, tick := w.tick + 1 }) := by
    simp [copyMap, makeMap, rangeMap, foldl_setIndex_entries]
  rw [e]
  exact ⟨⟨rfl, Nat.le_succ _, fun r hr => Function.update_noteq (Nat.ne_of_lt hr) _ _⟩,
    rfl, rfl⟩

theorem setIndex_kept {w w1 : World} (h : Kept w w1) (n : Addr) (hn : w.next ≤ n)
    (k : String) (v : Command) : Kept w (setIndex n k v w1) := by
  refine ⟨h.1, h.2.1, ?_⟩
  intro r hr
  have hne : r ≠ n := Nat.ne_of_lt (Nat.lt_of_lt_of_le hr hn)
  simp only [setIndex, Function.update_noteq hne]
  exact h.2.2 r hr

theorem CreateHandler_kept (cmdMap : Ref) (w : World) : Kept w (CreateHandler cmdMap w).2 := by
  unfold CreateHandler
  rcases h1 : createCommand w with ⟨r1, w1⟩
  have f1 := createCommand_frame w
  rw [h1] at f1
  cases r1 with
  | error e => exact f1.kept
  | ok c =>
    simp only []
    obtain ⟨k2, hfst, -⟩ := copyMap_kept cmdMap w1
    rcases h2 : copyMap cmdMap w1 with ⟨newMap, w2⟩
    rw [h2] at k2 hfst
    simp only [] at hfst ⊢
    exact setIndex_kept (f1.kept.chainKept k2) newMap (by rw [hfst, f1.2.1]) _ _

theorem UpdateHandler_kept (cmdMap : Ref) (w : World) : Kept w (UpdateHandler cmdMap w).2 := by
  unfold UpdateHandler
  split
  · exact (print_frame _ w).kept
  · rcases h0 : keys cmdMap w with ⟨entries, w0⟩
    have f0 := keys_frame cmdMap w
    rw [h0] at f0
    simp only []
    rcases h1 : PromptSelect "Select a command to update" entries w0 with ⟨r1, w1⟩
    have f1 := PromptSelect_frame "Select a command to update" entries w0
    rw [h1] at f1
    cases r1 with
    | error e => exact (f0.chain f1).kept
    | ok selection =>
      simp only []
      have f2 := (print_frame (.text (Command_String ((w1.mapOf cmdMap).index selection)))
        w1).chain (createCommandWithName_frame selection
          (print (.text (Command_String ((w1.mapOf cmdMap).index selection))) w1))
      rcases h3 : createCommandWithName selection
        (print (.text (Command_String ((w1.mapOf cmdMap).index selection))) w1) with ⟨r3, w3⟩
      rw [h3] at f2
      have f3 := (f0.chain f1).chain f2
      cases r3 with
      | error e => exact f3.kept
      | ok c =>
        simp only []
        obtain ⟨k4, hfst, -⟩ := copyMap_kept cmdMap w3
        rcases h4 : copyMap cmdMap w3 with ⟨newMap, w4⟩
        rw [h4] at k4 hfst
        simp only [] at hfst ⊢
        exact setIndex_kept (f3.kept.chainKept k4) newMap (by rw [hfst, f3.2.1]) _ _

theorem PromptSelect_ok_inv (label : String) (options : List String) (w w1 : World)
    (s : String) (h : PromptSelect label options w = (.ok s, w1)) :
    w.replies = .str s :: w1.replies := by
  unfold PromptSelect at h
  split at h <;> simp at h
  rename_i s0 rest heq
  obtain ⟨h1, h2⟩ := h
  rw [heq, h1, ← h2]

theorem PromptConfirm_ok_inv (label : String) (w w1 : World)
    (b : Bool) (h : PromptConfirm label w = (.ok b, w1)) :
    w.replies = .yes b :: w1.replies := by
  unfold PromptConfirm at h
  split at h <;> simp at h
  rename_i s0 rest heq
  obtain ⟨h1, h2⟩ := h
  rw [heq, h1, ← h2]

theorem deleteKey_absent (m : Ref) (s : String) (w : World) (h : s ∉ w.mapOf m) :
    deleteKey m s w = w := by
  cases m with
  | nil => rfl
  | addr a =>
    have he : (w.heap a).erase s = w.heap a := by
      apply AList.ext
      exact List.kerase_of_not_mem_keys (fun hk => h (AList.mem_keys.mpr hk))
    simp [deleteKey, he]

/-- DeleteHandler touches no map object that existed before, unless the answers
are the selection of a key of the mapping followed by a confirmation. -/
theorem DeleteHandler_kept (cmdMap : Ref) (w : World)
    (hno : ∀ s rest, w.replies = .str s :: .yes true :: rest → s ∉ w.mapOf cmdMap) :
    Kept w (DeleteHandler cmdMap w).2 := by
  unfold DeleteHandler
  rcases h0 : keys cmdMap w with ⟨entries, w0⟩
  have e0 := keys_eq cmdMap w
  rw [h0] at e0
  have f0 := keys_frame cmdMap w
  rw [h0] at f0
  simp only []
  split
  · exact (f0.chain (print_frame _ w0)).kept
  · rcases h1 : PromptSelect "Select command to delete" entries w0 with ⟨r1, w1⟩
    have f1 := PromptSelect_frame "Select command to delete" entries w0
    rw [h1] at f1
    cases r1 with
    | error e => exact (f0.chain f1).kept
    | ok selection =>
      simp only []
      have hr1 := PromptSelect_ok_inv _ _ _ _ _ h1
      have f2 := (print_frame (.text (Command_String ((w1.mapOf cmdMap).index selection) ++ "\n"))
        w1).chain (PromptConfirm_frame
          ("Are you sure you want to delete \x27" ++ selection ++ "\x27")
          (print (.text (Command_String ((w1.mapOf cmdMap).index selection) ++ "\n")) w1))
      rcases h3 : PromptConfirm ("Are you sure you want to delete \x27" ++ selection ++ "\x27")
        (print (.text (Command_String ((w1.mapOf cmdMap).index selection) ++ "\n")) w1)
        with ⟨r3, w3⟩
      rw [h3] at f2
      have f3 := (f0.chain f1).chain f2
      cases r3 with
      | error e => exact f3.kept
      | ok confirm =>
        simp only []
        have hr3 := PromptConfirm_ok_inv _ _ _ _ h3
        cases confirm with
        | false =>
          simp only [Bool.false_eq_true, if_false]
          exact f3.kept.chainKept (copyMap_kept cmdMap w3).1
        | true =>
          have hrep : w.replies = .str selection :: .yes true :: w3.replies := by
            have hw0 : w0.replies = w.replies := by
              have := congrArg (fun x => x.2.replies) e0
              simpa using this
            rw [← hw0, hr1]
            simp only [print] at hr3
            rw [hr3]
          have hns : selection ∉ w3.mapOf cmdMap := by
            rw [mapOf_of_untouched f3]
            exact hno selection w3.replies hrep
          simp only [if_true]
          rw [deleteKey_absent cmdMap selection w3 hns]
          exact f3.kept.chainKept (copyMap_kept cmdMap w3).1

theorem ImportHandler_replace_kept (fpath : String) (cmdMap : Ref) (fileOps : CmdFileOperater)
    (w : World) : Kept w (ImportHandler fpath false cmdMap fileOps w).2 := by
  unfold ImportHandler
  cases fileOps.LoadExternal fpath with
  | error e => exact Kept.still w
  | ok E =>
    simp only [Bool.false_eq_true, if_false, makeMap, foldl_setIndex, Function.update_same,
      Function.update_idem]
    exact ⟨rfl, Nat.le_succ _, fun r hr => Function.update_noteq (Nat.ne_of_lt hr) _ _⟩

theorem ImportHandler_saved (fpath : String) (isMerge : Bool) (cmdMap : Ref)
    (fileOps : CmdFileOperater) (w : World) :
    (ImportHandler fpath isMerge cmdMap fileOps w).2.saved = w.saved := by
  cases hE : fileOps.LoadExternal fpath with
  | error e => simp [ImportHandler, hE]
  | ok E =>
    cases isMerge with
    | false => rw [ImportHandler_replace_eq w cmdMap fpath fileOps E hE]
    | true =>
      cases cmdMap with
      | addr a => rw [ImportHandler_merge_eq w a fpath fileOps E hE]
      | nil =>
        cases E with
        | nil => rw [ImportHandler_merge_empty w .nil fpath fileOps hE]
        | cons e E => rw [ImportHandler_merge_nil w fpath fileOps e E hE]

/-- DeleteHandler on an empty mapping: the mapping itself is returned, no
prompt is issued and no map object is touched. -/
theorem DeleteHandler_empty (cmdMap : Ref) (w : World) (h0 : (w.mapOf cmdMap).len = 0) :
    DeleteHandler cmdMap w =
      (.ok cmdMap, print (.text "No commands to delete\n") { w with tick := w.tick + 1 }) := by
  unfold DeleteHandler
  rw [keys_eq]
  simp only []
  rw [if_pos (by rw [mapOf_congr rfl cmdMap]; exact h0)]

theorem savedList_perm (w : World) (m : Ref) :
    (savedList w m).Perm (w.mapOf m).values :=
  (w.order.perm _ _).map _

theorem saveResult_eq (newMap : Ref) (fileOps : CmdFileOperater) (w : World) :
    saveResult newMap fileOps w =
      ((match fileOps.Save (savedList w newMap) with
        | none => .ok newMap
        | some err => .error err),
       { w with tick := w.tick + 1, saved := w.saved ++ [savedList w newMap] }) := by
  unfold saveResult
  rw [updateFile_eq]
  unfold savedList
  cases fileOps.Save ((w.order.shuffle w.tick (w.mapOf newMap).entries).map (fun e => e.2)) <;>
    rfl

/-- The step of `ProcessAction` after a handler: save on success, pass the
error on otherwise. -/
theorem persistsAfter_of_saved (fileOps : CmdFileOperater) (w w1 : World)
    (r : Result Ref) (hs : w1.saved = w.saved) :
    PersistsAfter fileOps w (r, w1)
      (match r with
        | .error err => (.error err, w1)
        | .panic msg => (.panic msg, w1)
        | .ok newMap => saveResult newMap fileOps w1) := by
  cases r with
  | error e => exact ⟨rfl, hs⟩
  | panic msg => exact ⟨rfl, hs⟩
  | ok newMap =>
    unfold PersistsAfter
    simp only []
    rw [saveResult_eq]
    exact ⟨savedList w1 newMap, savedList_perm w1 newMap, by rw [← hs], rfl, rfl⟩

theorem persistsAfter_handler (fileOps : CmdFileOperater) (w : World)
    (h : Result Ref × World) (hs : h.2.saved = w.saved) :
    PersistsAfter fileOps w h
      (match h.1 with
        | .error err => (.error err, h.2)
        | .panic msg => (.panic msg, h.2)
        | .ok newMap => saveResult newMap fileOps h.2) :=
  persistsAfter_of_saved fileOps w h.2 h.1 hs

theorem copyMap_saved (m : Ref) (w : World) : (copyMap m w).2.saved = w.saved :=
  (copyMap_kept m w).1.1

theorem DeleteHandler_saved (cmdMap : Ref) (w : World) :
    (DeleteHandler cmdMap w).2.saved = w.saved := by
  unfold DeleteHandler
  rcases h0 : keys cmdMap w with ⟨entries, w0⟩
  have f0 := keys_frame cmdMap w
  rw [h0] at f0
  simp only []
  split
  · exact f0.2.2
  · rcases h1 : PromptSelect "Select command to delete" entries w0 with ⟨r1, w1⟩
    have f1 := PromptSelect_frame "Select command to delete" entries w0
    rw [h1] at f1
    cases r1 with
    | error e => exact (f0.chain f1).2.2
    | ok selection =>
      simp only []
      have f2 := (print_frame (.text (Command_String ((w1.mapOf cmdMap).index selection) ++ "\n"))
        w1).chain (PromptConfirm_frame
          ("Are you sure you want to delete \x27" ++ selection ++ "\x27")
          (print (.text (Command_String ((w1.mapOf cmdMap).index selection) ++ "\n")) w1))
      rcases h3 : PromptConfirm ("Are you sure you want to delete \x27" ++ selection ++ "\x27")
        (print (.text (Command_String ((w1.mapOf cmdMap).index selection) ++ "\n")) w1)
        with ⟨r3, w3⟩
      rw [h3] at f2
      have f3 := (f0.chain f1).chain f2
      cases r3 with
      | error e => exact f3.2.2
      | ok confirm =>
        simp only []
        rw [copyMap_saved]
        cases confirm
        · simpa using f3.2.2
        · cases cmdMap <;> simpa [deleteKey] using f3.2.2

theorem ViewHandler_frame (cmdMap : Ref) (w : World) :
    Untouched w (ViewHandler cmdMap w).2 := by
  unfold ViewHandler
  split
  · exact print_frame _ w
  · simp only [rangeMap, mapOf_tick]
    rcases viewEntries (w.mapOf cmdMap) (w.order.shuffle w.tick (w.mapOf cmdMap).entries)
      with ⟨entries, table⟩
    simp only []
    rcases h1 : PromptSelect "Select a command" (sortStrings entries)
      { w with tick := w.tick + 1 } with ⟨r1, w1⟩
    have f1 := PromptSelect_frame "Select a command" (sortStrings entries)
      { w with tick := w.tick + 1 }
    rw [h1] at f1
    have f0 : Untouched w { w with tick := w.tick + 1 } := ⟨rfl, rfl, rfl⟩
    cases r1 with
    | error e => exact f0.chain f1
    | ok selectedItem =>
      exact (f0.chain f1).chain
        (((print_frame _ w1).chain (print_frame _ _)).chain (print_frame _ _))

theorem index_of_mem (m : GoMap Command) (e : Entry) (h : e ∈ m.entries) :
    m.index e.1 = e.2 := by
  obtain ⟨a, b⟩ := e
  have hl : m.lookup a = some b := AList.mem_lookup_iff.mpr h
  simp [GoMap.index, hl]

theorem viewLabel_of_mem (m : GoMap Command) (e : Entry) (h : e ∈ m.entries) :
    viewLabel m e.1 = entryLabel e := by
  simp [viewLabel, entryLabel, index_of_mem m e h]

theorem viewEntries_concat (m : GoMap Command) (es : List Entry) (a : Entry) :
    viewEntries m (es ++ [a]) =
      ((viewEntries m es).1 ++ [viewLabel m a.1],
        (viewEntries m es).2.insert (viewLabel m a.1) a.1) := by
  simp [viewEntries, List.foldl_append, viewLabel]

theorem viewEntries_fst (m : GoMap Command) (es : List Entry) :
    (viewEntries m es).1 = es.map (fun e => viewLabel m e.1) := by
  induction es using List.reverseRecOn with
  | nil => simp [viewEntries]
  | append_singleton es a ih => rw [viewEntries_concat]; simp [ih]

/-- The table from label to name finds the name of an entry whose label no
entry with another name shares. -/
theorem viewEntries_lookup (m : GoMap Command) (es : List Entry) (e : Entry) (he : e ∈ es)
    (hu : ∀ e2 ∈ es, viewLabel m e2.1 = viewLabel m e.1 → e2.1 = e.1) :
    (viewEntries m es).2.lookup (viewLabel m e.1) = some e.1 := by
  induction es using List.reverseRecOn with
  | nil => cases he
  | append_singleton es a ih =>
    rw [viewEntries_concat]
    by_cases hl : viewLabel m a.1 = viewLabel m e.1
    · have hn := hu a (by simp) hl
      simp only []
      rw [← hl, AList.lookup_insert, hn]
    · simp only []
      rw [AList.lookup_insert_ne (fun h => hl h.symm)]
      have he2 : e ∈ es := by
        rcases List.mem_append.mp he with h | h
        · exact h
        · exfalso
          rw [List.mem_singleton.mp h] at hl
          exact hl rfl
      exact ih he2 (fun e2 h2 => hu e2 (List.mem_append_left _ h2))

theorem PromptSelect_asked (label : String) (options : List String) (w : World) :
    (PromptSelect label options w).2.asked = w.asked ++ [.select label options] := by
  unfold PromptSelect
  split <;> rfl

theorem sortStrings_perm (l : List String) : (sortStrings l).Perm l :=
  List.perm_insertionSort _ l

theorem sortStrings_sorted (l : List String) : (sortStrings l).Sorted (fun a b => a ≤ b) :=
  List.sorted_insertionSort _ l


theorem has_of_untouched {w w1 : World} (h : Untouched w w1) {m : Ref} (hm : w.has m) :
    w1.has m := by
  cases m with
  | nil => trivial
  | addr a =>
    show a < w1.next
    rw [h.2.1]
    exact hm

theorem has_deleteKey {w : World} {m : Ref} {s : String} (hm : w.has m) :
    (deleteKey m s w).has m := by
  cases m with
  | nil => trivial
  | addr a => exact hm

theorem mapOf_deleteKey (m : Ref) (s : String) (w : World) :
    (deleteKey m s w).mapOf m = (w.mapOf m).erase s := by
  cases m with
  | nil => rfl
  | addr a => simp [deleteKey, World.mapOf]

/-! ## The claims -/

/-- C1 as stated fails at the nil mapping: with a non-empty list loaded, the
first assignment of the merge loop panics and no mapping is returned. -/
theorem import_merge_nil_panics :
    (ImportHandler "in.json" true .nil (opsReturning extList) (mkWorld [] [] orderId)).1
        = .panic "assignment to entry in nil map" ∧
    ¬ ∃ newMap w',
        ImportHandler "in.json" true .nil (opsReturning extList) (mkWorld [] [] orderId)
          = (.ok newMap, w') := by
  have h := ImportHandler_merge_nil (mkWorld [] [] orderId) "in.json" (opsReturning extList)
    cmdLs [cmdTop, cmdLs2] rfl
  refine ⟨by rw [h], ?_⟩
  rintro ⟨newMap, w', h2⟩
  rw [h] at h2
  cases h2

/-- C1, amended. ImportHandler with isMerge=true on a mapping that is not nil:
when LoadExternal returns the list E, the returned mapping has exactly the keys
of the given mapping together with the names occurring in E; every name
occurring in E is mapped to the last element of E with that name; every key of
the given mapping that is no name of E keeps its value. -/
theorem import_merge_upserts (w : World) (cmdMap : Ref) (fpath : String)
    (fileOps : CmdFileOperater) (E : List Command)
    (hm : w.has cmdMap) (hnil : cmdMap ≠ .nil)
    (hE : fileOps.LoadExternal fpath = .ok E) :
    ∃ newMap w', ImportHandler fpath true cmdMap fileOps w = (.ok newMap, w') ∧
      (∀ k, k ∈ w'.mapOf newMap ↔ k ∈ w.mapOf cmdMap ∨ ∃ e ∈ E, e.Name = k) ∧
      (∀ n, (∃ e ∈ E, e.Name = n) →
        ∃ c, lastNamed E n = some c ∧ (w'.mapOf newMap).lookup n = some c) ∧
      (∀ k, k ∈ w.mapOf cmdMap → (¬ ∃ e ∈ E, e.Name = k) →
        (w'.mapOf newMap).lookup k = (w.mapOf cmdMap).lookup k) := by
  cases cmdMap with
  | nil => exact absurd rfl hnil
  | addr a =>
    refine ⟨_, _, ImportHandler_merge_eq w a fpath fileOps E hE, ?_, ?_, ?_⟩
    · intro k
      simp [World.mapOf, mem_upsertAll]
    · intro n hn
      obtain ⟨c, hc, -, -⟩ := lastNamed_isSome E n hn
      exact ⟨c, hc, by simp [World.mapOf, lookup_upsertAll, hc]⟩
    · intro k _ hk
      have hnone : lastNamed E k = none := by
        cases hl : lastNamed E k with
        | none => rfl
        | some c =>
          exfalso
          have hmem : c ∈ E.filter (fun e => decide (e.Name = k)) :=
            List.mem_of_getLast?_eq_some hl
          exact hk ⟨c, (List.mem_filter.mp hmem).1,
            by simpa using (List.mem_filter.mp hmem).2⟩
      simp [World.mapOf, lookup_upsertAll, hnone]

theorem import_merge_upserts_witness :
    (opsReturning extList).LoadExternal "in.json" = .ok extList ∧
    ∃ newMap w',
      ImportHandler "in.json" true (.addr 0) (opsReturning extList)
        (mkWorld [mapTwo] [] orderId) = (.ok newMap, w') ∧
      (w'.mapOf newMap).lookup "ls-all" = some cmdLs2 ∧
      (w'.mapOf newMap).lookup "top" = some cmdTop ∧
      (w'.mapOf newMap).lookup "ps" = some cmdPs ∧
      ("other" ∉ w'.mapOf newMap) :=
  ⟨rfl, by
    obtain ⟨newMap, w', h, hk, hl, hf⟩ :=
      import_merge_upserts (mkWorld [mapTwo] [] orderId) (.addr 0) "in.json"
        (opsReturning extList) extList (by decide) (by decide) rfl
    refine ⟨newMap, w', h, ?_, ?_, ?_, ?_⟩
    · obtain ⟨c, hc, hlook⟩ := hl "ls-all" ⟨cmdLs2, by decide, rfl⟩
      have h2 : lastNamed extList "ls-all" = some cmdLs2 := by decide
      rw [hlook, ← hc, h2]
    · obtain ⟨c, hc, hlook⟩ := hl "top" ⟨cmdTop, by decide, rfl⟩
      have h2 : lastNamed extList "top" = some cmdTop := by decide
      rw [hlook, ← hc, h2]
    · rw [hf "ps" (by decide) (by decide)]
      decide
    · rw [hk "other"]
      decide⟩

/-- C2. ImportHandler with isMerge=false: when LoadExternal returns the list E,
the returned mapping is the same whatever the prior mapping was; its keys are
exactly the names occurring in E and each of them is mapped to the last element
of E with that name. -/
theorem import_replace_ignores_prior (w₁ w₂ : World) (m₁ m₂ : Ref) (fpath : String)
    (fileOps : CmdFileOperater) (E : List Command)
    (hE : fileOps.LoadExternal fpath = .ok E) :
    ∃ n₁ w₁' n₂ w₂',
      ImportHandler fpath false m₁ fileOps w₁ = (.ok n₁, w₁') ∧
      ImportHandler fpath false m₂ fileOps w₂ = (.ok n₂, w₂') ∧
      w₁'.mapOf n₁ = w₂'.mapOf n₂ ∧
      (∀ k, k ∈ w₁'.mapOf n₁ ↔ ∃ e ∈ E, e.Name = k) ∧
      (∀ n, (w₁'.mapOf n₁).lookup n = lastNamed E n) := by
  refine ⟨_, _, _, _, ImportHandler_replace_eq w₁ m₁ fpath fileOps E hE,
    ImportHandler_replace_eq w₂ m₂ fpath fileOps E hE, ?_, ?_, ?_⟩
  · simp [World.mapOf]
  · intro k
    simp [World.mapOf, mem_upsertAll]
  · intro n
    simp [World.mapOf, lookup_upsertAll]

theorem import_replace_ignores_prior_witness :
    (opsReturning extList).LoadExternal "in.json" = .ok extList ∧
    ∃ n₁ w₁' n₂ w₂',
      ImportHandler "in.json" false (.addr 0) (opsReturning extList)
        (mkWorld [mapTwo] [] orderId) = (.ok n₁, w₁') ∧
      ImportHandler "in.json" false .nil (opsReturning extList)
        (mkWorld [mapTwo, ∅] [] orderRev) = (.ok n₂, w₂') ∧
      w₁'.mapOf n₁ = w₂'.mapOf n₂ ∧
      (w₁'.mapOf n₁).lookup "ls-all" = some cmdLs2 ∧
      (w₁'.mapOf n₁).lookup "ps" = none :=
  ⟨rfl, by
    obtain ⟨n₁, w₁', n₂, w₂', h1, h2, heq, hk, hl⟩ :=
      import_replace_ignores_prior (mkWorld [mapTwo] [] orderId)
        (mkWorld [mapTwo, ∅] [] orderRev) (.addr 0) .nil "in.json" (opsReturning extList)
        extList rfl
    refine ⟨n₁, w₁', n₂, w₂', h1, h2, heq, ?_, ?_⟩
    · rw [hl]; decide
    · rw [hl]; decide⟩

/-- C6. Import failure atomicity: when LoadExternal returns an error,
ImportHandler returns that same error and no mapping, and nothing has changed:
the given mapping has the entries it had before the call. -/
theorem import_failure_leaves_world (w : World) (cmdMap : Ref) (fpath : String)
    (isMerge : Bool) (fileOps : CmdFileOperater) (err : String)
    (hE : fileOps.LoadExternal fpath = .error err) :
    ImportHandler fpath isMerge cmdMap fileOps w = (.error err, w) ∧
      (ImportHandler fpath isMerge cmdMap fileOps w).2.mapOf cmdMap = w.mapOf cmdMap := by
  have h : ImportHandler fpath isMerge cmdMap fileOps w = (.error err, w) := by
    simp [ImportHandler, hE]
  exact ⟨h, by rw [h]⟩

theorem import_failure_leaves_world_witness :
    (opsFailing "no such file").LoadExternal "in.json" = .error "no such file" ∧
    (ImportHandler "in.json" true (.addr 0) (opsFailing "no such file")
        (mkWorld [mapTwo] [] orderId)).1 = .error "no such file" ∧
    (ImportHandler "in.json" true (.addr 0) (opsFailing "no such file")
        (mkWorld [mapTwo] [] orderId)).2.mapOf (.addr 0) = mapTwo :=
  ⟨rfl, by
    have h := import_failure_leaves_world (mkWorld [mapTwo] [] orderId) (.addr 0) "in.json" true
      (opsFailing "no such file") "no such file" rfl
    exact ⟨by rw [h.1], by rw [h.2]; rfl⟩⟩

/-- C4. CreateHandler upsert: with the command c read from the four prompts,
the returned mapping maps c.Name to c, agrees with the given mapping at every
other key and has no further keys; it has one entry more than the given mapping
when c.Name is new, and as many entries when c.Name replaces an existing key. -/
theorem create_upserts (w : World) (cmdMap : Ref) (n x p d : String) (rest : List Reply)
    (hm : w.has cmdMap)
    (hr : w.replies = .str n :: .str x :: .str p :: .str d :: rest) :
    ∃ newMap w', CreateHandler cmdMap w = (.ok newMap, w') ∧
      (w'.mapOf newMap).lookup n = some ⟨n, x, p, d⟩ ∧
      (∀ k, k ≠ n → (w'.mapOf newMap).lookup k = (w.mapOf cmdMap).lookup k) ∧
      (∀ k, k ∈ w'.mapOf newMap ↔ k = n ∨ k ∈ w.mapOf cmdMap) ∧
      (n ∉ w.mapOf cmdMap → (w'.mapOf newMap).len = (w.mapOf cmdMap).len + 1) ∧
      (n ∈ w.mapOf cmdMap → (w'.mapOf newMap).len = (w.mapOf cmdMap).len) := by
  unfold CreateHandler
  rw [createCommand_ok n x p d rest w hr]
  simp only []
  have hs := copyMap_spec cmdMap
    { w with
      replies := rest,
      asked := w.asked ++
        [.string "Command name", .string "Command", .string "Platform",
         .string "Description"] } hm
  rcases hc : copyMap cmdMap
    { w with
      replies := rest,
      asked := w.asked ++
        [.string "Command name", .string "Command", .string "Platform",
         .string "Description"] } with ⟨newMap, w2⟩
  rw [hc] at hs
  simp only [] at hs
  obtain ⟨h1, hperm, -, -, -, -, -, -⟩ := hs
  subst h1
  replace hperm : (w2.heap w.next).entries.Perm (w.mapOf cmdMap).entries := hperm
  have hmem : ∀ k, k ∈ w2.heap w.next ↔ k ∈ w.mapOf cmdMap := fun k => AList.mem_of_perm hperm
  refine ⟨.addr w.next, _, rfl, ?_, ?_, ?_, ?_, ?_⟩
  · simp [World.mapOf, setIndex, AList.lookup_insert]
  · intro k hk
    simp only [mapOf_addr, setIndex, Function.update_same]
    rw [AList.lookup_insert_ne hk]
    exact AList.perm_lookup hperm
  · intro k
    simp only [mapOf_addr, setIndex, Function.update_same, AList.mem_insert, hmem]
  · intro hn
    simp only [mapOf_addr, setIndex, Function.update_same, len_insert, hmem, hn, if_false]
    rw [len_eq_of_perm _ _ hperm]
  · intro hn
    simp only [mapOf_addr, setIndex, Function.update_same, len_insert, hmem, hn, if_true]
    exact len_eq_of_perm _ _ hperm

theorem create_upserts_witness :
    ∃ newMap w',
      CreateHandler (.addr 0)
        (mkWorld [mapTwo] [.str "top", .str "top -o cpu", .str "mac", .str "monitor"]
          orderRev) = (.ok newMap, w') ∧
      (w'.mapOf newMap).lookup "top" = some cmdTop ∧
      (w'.mapOf newMap).lookup "ps" = some cmdPs ∧
      (w'.mapOf newMap).len = 3 := by
  obtain ⟨newMap, w', h, hl, ho, -, hnew, -⟩ :=
    create_upserts
      (mkWorld [mapTwo] [.str "top", .str "top -o cpu", .str "mac", .str "monitor"] orderRev)
      (.addr 0) "top" "top -o cpu" "mac" "monitor" [] (by decide) rfl
  refine ⟨newMap, w', h, hl, ?_, ?_⟩
  · rw [ho "ps" (by decide)]; decide
  · rw [hnew (by decide)]; decide

/-- C5. UpdateHandler: on an empty mapping it returns the given mapping as it
is and issues no prompt; on a mapping that has the selected name s, with the
prompted values x, p and d, the returned mapping has the keys of the given
mapping, maps s to the command named s with command x, platform p and
description d, and maps every other key to its value in the given mapping. -/
theorem update_overwrites (w : World) (cmdMap : Ref) :
    ((w.mapOf cmdMap).len = 0 →
      ∃ w', UpdateHandler cmdMap w = (.ok cmdMap, w') ∧ w'.heap = w.heap ∧
        w'.asked = w.asked ∧ w'.replies = w.replies) ∧
    (∀ s x p d rest, w.has cmdMap → s ∈ w.mapOf cmdMap →
      w.replies = .str s :: .str x :: .str p :: .str d :: rest →
      ∃ newMap w', UpdateHandler cmdMap w = (.ok newMap, w') ∧
        (∀ k, k ∈ w'.mapOf newMap ↔ k ∈ w.mapOf cmdMap) ∧
        (w'.mapOf newMap).lookup s = some ⟨s, x, p, d⟩ ∧
        (∀ k, k ≠ s → (w'.mapOf newMap).lookup k = (w.mapOf cmdMap).lookup k)) := by
  constructor
  · intro h0
    exact ⟨print (.text "No existing commands.\n") w, by simp [UpdateHandler, h0],
      rfl, rfl, rfl⟩
  · intro s x p d rest hm hs hr
    obtain ⟨w1, hu, heq⟩ := UpdateHandler_ok w cmdMap s x p d rest hs hr
    have hm1 : w1.has cmdMap := has_of_untouched hu hm
    obtain ⟨h1, hperm, -, -, -, -, -, -⟩ := copyMap_spec cmdMap w1 hm1
    rw [mapOf_of_untouched hu] at hperm
    rw [h1] at heq
    have hmem : ∀ k, k ∈ (copyMap cmdMap w1).2.heap w1.next ↔ k ∈ w.mapOf cmdMap :=
      fun k => AList.mem_of_perm hperm
    refine ⟨_, _, heq, ?_, ?_, ?_⟩
    · intro k
      simp only [mapOf_addr, setIndex, Function.update_same, AList.mem_insert, hmem]
      constructor
      · rintro (h | h)
        · rw [h]; exact hs
        · exact h
      · exact Or.inr
    · simp [mapOf_addr, setIndex, AList.lookup_insert]
    · intro k hk
      simp only [mapOf_addr, setIndex, Function.update_same]
      rw [AList.lookup_insert_ne hk]
      exact AList.perm_lookup hperm

theorem update_overwrites_witness :
    (∃ w', UpdateHandler (.addr 0) (mkWorld [∅] [.str "ps"] orderId) = (.ok (.addr 0), w') ∧
      w'.asked = [] ∧ w'.replies = [.str "ps"]) ∧
    (∃ newMap w',
      UpdateHandler (.addr 0)
        (mkWorld [mapTwo] [.str "ps", .str "ps -ef", .str "bsd", .str "all"] orderRev) =
          (.ok newMap, w') ∧
      (w'.mapOf newMap).lookup "ps" = some ⟨"ps", "ps -ef", "bsd", "all"⟩ ∧
      (w'.mapOf newMap).lookup "ls-all" = some cmdLs ∧
      ("top" ∉ w'.mapOf newMap)) := by
  constructor
  · obtain ⟨w', h, -, ha, hr⟩ :=
      (update_overwrites (mkWorld [∅] [.str "ps"] orderId) (.addr 0)).1 (by decide)
    exact ⟨w', h, ha, hr⟩
  · obtain ⟨newMap, w', h, hk, hl, ho⟩ :=
      (update_overwrites
        (mkWorld [mapTwo] [.str "ps", .str "ps -ef", .str "bsd", .str "all"] orderRev)
        (.addr 0)).2
        "ps" "ps -ef" "bsd" "all" [] (by decide) (by decide) rfl
    refine ⟨newMap, w', h, hl, ?_, ?_⟩
    · rw [ho "ls-all" (by decide)]; decide
    · rw [hk "top"]; decide

/-- C3. DeleteHandler on a mapping that has the selected name s: when the
confirmation answer is false the returned mapping has the entries of the given
mapping; when it is true the returned mapping lacks s, keeps the value of every
other key, and has one entry less. -/
theorem delete_removes_selected (w : World) (cmdMap : Ref) (s : String) (b : Bool)
    (rest : List Reply) (hm : w.has cmdMap) (hs : s ∈ w.mapOf cmdMap)
    (hr : w.replies = .str s :: .yes b :: rest) :
    ∃ newMap w', DeleteHandler cmdMap w = (.ok newMap, w') ∧
      (b = false →
        (w'.mapOf newMap).entries.Perm (w.mapOf cmdMap).entries ∧
        (∀ k, (w'.mapOf newMap).lookup k = (w.mapOf cmdMap).lookup k) ∧
        (w'.mapOf newMap).len = (w.mapOf cmdMap).len) ∧
      (b = true →
        (w'.mapOf newMap).entries.Perm ((w.mapOf cmdMap).erase s).entries ∧
        s ∉ w'.mapOf newMap ∧
        (∀ k, k ≠ s → (w'.mapOf newMap).lookup k = (w.mapOf cmdMap).lookup k) ∧
        (w'.mapOf newMap).len = (w.mapOf cmdMap).len - 1) := by
  obtain ⟨w1, hu, heq⟩ := DeleteHandler_ok w cmdMap s b rest hs hr
  have hm1 : w1.has cmdMap := has_of_untouched hu hm
  cases b with
  | false =>
    simp only [Bool.false_eq_true, if_false] at heq
    obtain ⟨h1, hperm, -, -, -, -, -, -⟩ := copyMap_spec cmdMap w1 hm1
    rw [mapOf_of_untouched hu] at hperm
    rw [h1] at heq
    refine ⟨_, _, heq, fun _ => ⟨hperm, fun k => AList.perm_lookup hperm,
      len_eq_of_perm _ _ hperm⟩, fun h => by cases h⟩
  | true =>
    simp only [if_true] at heq
    have hm2 : (deleteKey cmdMap s w1).has cmdMap := has_deleteKey hm1
    obtain ⟨h1, hperm, -, -, -, -, -, -⟩ := copyMap_spec cmdMap (deleteKey cmdMap s w1) hm2
    have hd : (deleteKey cmdMap s w1).mapOf cmdMap = (w.mapOf cmdMap).erase s := by
      rw [mapOf_deleteKey, mapOf_of_untouched hu]
    rw [hd] at hperm
    rw [h1] at heq
    refine ⟨_, _, heq, (fun h => by cases h), fun _ => ⟨hperm, ?_, ?_, ?_⟩⟩
    · rw [mapOf_addr, AList.mem_of_perm hperm, AList.mem_erase]
      exact fun h => h.1 rfl
    · intro k hk
      rw [mapOf_addr, AList.perm_lookup hperm, AList.lookup_erase_ne hk]
    · have h2 := len_eq_of_perm _ _ hperm
      have h3 := len_erase (w.mapOf cmdMap) s hs
      rw [mapOf_addr]
      omega

theorem delete_removes_selected_witness :
    (∃ newMap w',
      DeleteHandler (.addr 0) (mkWorld [mapTwo] [.str "ps", .yes true] orderRev) = (.ok newMap, w') ∧
      (w'.mapOf newMap).lookup "ps" = none ∧
      (w'.mapOf newMap).lookup "ls-all" = some cmdLs ∧
      (w'.mapOf newMap).len = 1) ∧
    (∃ newMap w',
      DeleteHandler (.addr 0) (mkWorld [mapTwo] [.str "ps", .yes false] orderRev) = (.ok newMap, w') ∧
      (w'.mapOf newMap).lookup "ps" = some cmdPs ∧
      (w'.mapOf newMap).len = 2) := by
  constructor
  · obtain ⟨newMap, w', h, -, ht⟩ :=
      delete_removes_selected (mkWorld [mapTwo] [.str "ps", .yes true] orderRev) (.addr 0)
        "ps" true [] (by decide) (by decide) rfl
    obtain ⟨-, hn, ho, hl⟩ := ht rfl
    refine ⟨newMap, w', h, AList.lookup_eq_none.mpr hn, ?_, ?_⟩
    · rw [ho "ls-all" (by decide)]; decide
    · rw [hl]; decide
  · obtain ⟨newMap, w', h, hf, -⟩ :=
      delete_removes_selected (mkWorld [mapTwo] [.str "ps", .yes false] orderRev) (.addr 0)
        "ps" false [] (by decide) (by decide) rfl
    obtain ⟨-, ho, hl⟩ := hf rfl
    refine ⟨newMap, w', h, ?_, ?_⟩
    · rw [ho "ps"]; decide
    · rw [hl]; decide

/-- C9. Load/save round trip: for a stored list L with pairwise distinct names,
LoadCommands returns a mapping, updateFile hands to Save exactly one list S, a
rearrangement of L (same elements, same length), and LoadCommands on a store
that holds S returns a mapping with the same entries. -/
theorem load_save_round_trip (w : World) (fileOps : CmdFileOperater) (L : List Command)
    (hL : fileOps.Load = .ok L) (hnd : (L.map (fun c => c.Name)).Nodup) :
    ∃ cmdMap w1 S,
      LoadCommands fileOps w = (.ok cmdMap, w1) ∧
      updateFile cmdMap fileOps w1 =
        (fileOps.Save S, { w1 with tick := w1.tick + 1, saved := w1.saved ++ [S] }) ∧
      S.Perm L ∧ S.length = L.length ∧ (∀ c, c ∈ S ↔ c ∈ L) ∧
      ∀ (reOps : CmdFileOperater) (w2 : World), reOps.Load = .ok S →
        ∃ cmdMap2 w3, LoadCommands reOps w2 = (.ok cmdMap2, w3) ∧
          (w3.mapOf cmdMap2).entries.Perm (w1.mapOf cmdMap).entries ∧
          ∀ k, (w3.mapOf cmdMap2).lookup k = (w1.mapOf cmdMap).lookup k := by
  have hS : ((w.order.shuffle w.tick (upsertAll ∅ L).entries).map (fun e => e.2)).Perm L :=
    ((w.order.perm _ _).map _).trans (upsertAll_values_perm L hnd)
  refine ⟨_, _, (w.order.shuffle w.tick (upsertAll ∅ L).entries).map (fun e => e.2),
    LoadCommands_eq w fileOps L hL, ?_, ?_, ?_, ?_, ?_⟩
  · rw [updateFile_eq]
    simp [World.mapOf]
  · exact hS
  · exact hS.length_eq
  · exact fun c => hS.mem_iff
  · intro reOps w2 hre
    have hp := upsertAll_perm_of_perm _ L hS hnd
    refine ⟨_, _, LoadCommands_eq w2 reOps _ hre, ?_, ?_⟩
    · simpa [World.mapOf] using hp
    · intro k
      simpa [World.mapOf] using AList.perm_lookup hp

theorem load_save_round_trip_witness :
    ∃ cmdMap w1 S,
      LoadCommands (opsReturning [cmdLs, cmdPs]) (mkWorld [] [] orderRev) = (.ok cmdMap, w1) ∧
      (updateFile cmdMap (opsReturning [cmdLs, cmdPs]) w1).2.saved = [S] ∧
      S.Perm [cmdLs, cmdPs] ∧
      ∃ cmdMap2 w3,
        LoadCommands (opsReturning S) (mkWorld [] [] orderId) = (.ok cmdMap2, w3) ∧
        ∀ k, (w3.mapOf cmdMap2).lookup k = (w1.mapOf cmdMap).lookup k := by
  obtain ⟨cmdMap, w1, S, h1, h2, h3, -, -, h4⟩ :=
    load_save_round_trip (mkWorld [] [] orderRev) (opsReturning [cmdLs, cmdPs])
      [cmdLs, cmdPs] rfl (by decide)
  obtain ⟨cmdMap2, w3, h5, -, h6⟩ := h4 (opsReturning S) (mkWorld [] [] orderId) rfl
  refine ⟨cmdMap, w1, S, h1, ?_, h3, cmdMap2, w3, h5, h6⟩
  rw [h2]
  have hs : w1.saved = [] := by
    have := congrArg (fun x => x.2.saved) h1
    simpa [LoadCommands, makeMap, foldl_setIndex, opsReturning, mkWorld] using this.symm
  simp [hs]

/-- C7 as stated fails for ImportHandler with merge=true: after the call the
mapping that was given holds the loaded commands too. -/
theorem import_merge_mutates_given_map :
    ¬ ((ImportHandler "in.json" true (.addr 0) (opsReturning extList)
          (mkWorld [mapTwo] [] orderId)).2.mapOf (.addr 0)).entries.Perm
        ((mkWorld [mapTwo] [] orderId).mapOf (.addr 0)).entries := by
  intro h
  have hlen := h.length_eq
  revert hlen
  decide

/-- DeleteHandler with a confirmed deletion removes the key from the mapping it
was given before it copies: the key is gone from the map of the caller. -/
theorem delete_confirmed_mutates_given_map :
    ((mkWorld [mapTwo] [.str "ps", .yes true] orderId).mapOf (.addr 0)).lookup "ps"
      = some cmdPs ∧
    ((DeleteHandler (.addr 0)
      (mkWorld [mapTwo] [.str "ps", .yes true] orderId)).2.mapOf (.addr 0)).lookup "ps" =
      none := by
  decide

/-- C7, amended. For a mapping the caller holds when the handler is called (the
nil mapping or a map object made before): CreateHandler and UpdateHandler leave
it as it was; DeleteHandler leaves it as it was when the mapping is empty, and
whenever the answers are not the selection of one of its keys followed by a
confirmation (a failed prompt, the answer no); ImportHandler leaves it as it
was when merge is false or the load fails. With merge=true, a successful load
and a mapping that is not nil, ImportHandler writes the loaded commands into
the given mapping itself and returns that very mapping. -/
theorem handlers_keep_given_map (w : World) (cmdMap : Ref) (hm : w.has cmdMap) :
    (CreateHandler cmdMap w).2.mapOf cmdMap = w.mapOf cmdMap ∧
    (UpdateHandler cmdMap w).2.mapOf cmdMap = w.mapOf cmdMap ∧
    (((w.mapOf cmdMap).len = 0 ∨
        ∀ s rest, w.replies = .str s :: .yes true :: rest → s ∉ w.mapOf cmdMap) →
      (DeleteHandler cmdMap w).2.mapOf cmdMap = w.mapOf cmdMap) ∧
    (∀ fpath fileOps,
      (ImportHandler fpath false cmdMap fileOps w).2.mapOf cmdMap = w.mapOf cmdMap) ∧
    (∀ fpath fileOps err, fileOps.LoadExternal fpath = .error err →
      (ImportHandler fpath true cmdMap fileOps w).2.mapOf cmdMap = w.mapOf cmdMap) ∧
    (∀ fpath fileOps E, fileOps.LoadExternal fpath = .ok E → cmdMap ≠ .nil →
      (ImportHandler fpath true cmdMap fileOps w).1 = .ok cmdMap ∧
      ∀ k, ((ImportHandler fpath true cmdMap fileOps w).2.mapOf cmdMap).lookup k =
        (lastNamed E k).or ((w.mapOf cmdMap).lookup k)) := by
  refine ⟨mapOf_of_kept (CreateHandler_kept cmdMap w) cmdMap hm,
    mapOf_of_kept (UpdateHandler_kept cmdMap w) cmdMap hm, ?_,
    fun fpath fileOps => mapOf_of_kept (ImportHandler_replace_kept fpath cmdMap fileOps w)
      cmdMap hm,
    ?_, ?_⟩
  · intro hno
    apply mapOf_of_kept (DeleteHandler_kept cmdMap w ?_) cmdMap hm
    rcases hno with h0 | hno
    · intro s rest _ hs
      exact len_ne_zero_of_mem _ s hs h0
    · exact hno
  · intro fpath fileOps err herr
    simp [ImportHandler, herr]
  · intro fpath fileOps E hE hnil
    cases cmdMap with
    | nil => exact absurd rfl hnil
    | addr a =>
      rw [ImportHandler_merge_eq w a fpath fileOps E hE]
      exact ⟨rfl, fun k => by simp [World.mapOf, lookup_upsertAll]⟩

theorem handlers_keep_given_map_witness :
    (CreateHandler (.addr 0)
      (mkWorld [mapTwo] [.str "ps", .str "ps -ef", .str "bsd", .str "all"]
        orderRev)).2.mapOf (.addr 0) = mapTwo ∧
    (UpdateHandler (.addr 0)
      (mkWorld [mapTwo] [.str "ps", .str "ps -ef", .str "bsd", .str "all"]
        orderRev)).2.mapOf (.addr 0) = mapTwo ∧
    (DeleteHandler (.addr 0)
      (mkWorld [mapTwo] [.str "ps", .yes false] orderRev)).2.mapOf (.addr 0) = mapTwo ∧
    (DeleteHandler (.addr 0)
      (mkWorld [∅] [.str "ps", .yes true] orderRev)).2.mapOf (.addr 0) = ∅ ∧
    (ImportHandler "in.json" false (.addr 0) (opsReturning extList)
      (mkWorld [mapTwo] [] orderRev)).2.mapOf (.addr 0) = mapTwo ∧
    (ImportHandler "in.json" true (.addr 0) (opsFailing "no such file")
      (mkWorld [mapTwo] [] orderRev)).2.mapOf (.addr 0) = mapTwo ∧
    (ImportHandler "in.json" true (.addr 0) (opsReturning extList)
      (mkWorld [mapTwo] [] orderRev)).1 = .ok (.addr 0) ∧
    ((ImportHandler "in.json" true (.addr 0) (opsReturning extList)
      (mkWorld [mapTwo] [] orderRev)).2.mapOf (.addr 0)).lookup "top" = some cmdTop := by
  have h1 := handlers_keep_given_map
    (mkWorld [mapTwo] [.str "ps", .str "ps -ef", .str "bsd", .str "all"] orderRev) (.addr 0)
    (by decide)
  have h2 := handlers_keep_given_map (mkWorld [mapTwo] [.str "ps", .yes false] orderRev)
    (.addr 0) (by decide)
  have h4 := handlers_keep_given_map (mkWorld [∅] [.str "ps", .yes true] orderRev)
    (.addr 0) (by decide)
  have h3 := handlers_keep_given_map (mkWorld [mapTwo] [] orderRev) (.addr 0) (by decide)
  refine ⟨h1.1, h1.2.1, h2.2.2.1 (Or.inr ?_), h4.2.2.1 (Or.inl (by decide)),
    h3.2.2.2.1 _ _, h3.2.2.2.2.1 _ _ "no such file" rfl,
    (h3.2.2.2.2.2 "in.json" (opsReturning extList) extList rfl (by decide)).1, ?_⟩
  · intro s rest h
    simp [mkWorld] at h
  · rw [(h3.2.2.2.2.2 "in.json" (opsReturning extList) extList rfl (by decide)).2]
    decide

/-- C8 as stated fails in its last clause: when the select prompt of ViewHandler
fails on a non-empty mapping, ProcessAction returns the error and no mapping,
so the input mapping is not returned. -/
theorem process_view_prompt_failure :
    (ProcessAction (.addr 0) View (opsReturning []) (mkWorld [mapTwo] [.fail "interrupted"] orderId)).1
        = .error "interrupted" ∧
    (ProcessAction (.addr 0) View (opsReturning []) (mkWorld [mapTwo] [.fail "interrupted"] orderId)).1
        ≠ .ok (.addr 0) := by
  have h : (ProcessAction (.addr 0) View (opsReturning [])
      (mkWorld [mapTwo] [.fail "interrupted"] orderId)).1 = .error "interrupted" := by
    rfl
  exact ⟨h, by rw [h]; exact fun h2 => by cases h2⟩

/-- C8, amended. For Create, Update and Remove, and for Import once its two
prompts have been answered: if the handler returns a mapping, Save is called
exactly once, on a list holding the values of that mapping, one per key, and
ProcessAction returns the mapping when Save succeeds and the error of Save
otherwise; if the handler fails, ProcessAction returns its error and Save is
not called. For View, Save is not called and no mapping is modified; the input
mapping is returned when ViewHandler succeeds, and the error of ViewHandler is
returned, with no mapping, when it fails. -/
theorem process_action_persists (w : World) (cmdMap : Ref) (fileOps : CmdFileOperater) :
    PersistsAfter fileOps w (CreateHandler cmdMap w) (ProcessAction cmdMap Create fileOps w) ∧
    PersistsAfter fileOps w (UpdateHandler cmdMap w) (ProcessAction cmdMap Update fileOps w) ∧
    PersistsAfter fileOps w (DeleteHandler cmdMap w) (ProcessAction cmdMap Remove fileOps w) ∧
    (∀ f isMerge wa wb,
      PromptString "Enter the absolute file path for the commands you want to import" w
        = (.ok f, wa) →
      PromptConfirm "Do you want to merge the new commands with existing commands?" wa
        = (.ok isMerge, wb) →
      PersistsAfter fileOps w (ImportHandler f isMerge cmdMap fileOps wb)
        (ProcessAction cmdMap Import fileOps w)) ∧
    (ProcessAction cmdMap View fileOps w).2.saved = w.saved ∧
    (ProcessAction cmdMap View fileOps w).2.heap = w.heap ∧
    ((ViewHandler cmdMap w).1 = none →
      (ProcessAction cmdMap View fileOps w).1 = .ok cmdMap) ∧
    (∀ err, (ViewHandler cmdMap w).1 = some err →
      (ProcessAction cmdMap View fileOps w).1 = .error err) := by
  have hC : ProcessAction cmdMap Create fileOps w =
      (match (CreateHandler cmdMap w).1 with
        | .error err => (.error err, (CreateHandler cmdMap w).2)
        | .panic msg => (.panic msg, (CreateHandler cmdMap w).2)
        | .ok newMap => saveResult newMap fileOps (CreateHandler cmdMap w).2) := by
    unfold ProcessAction
    rw [if_pos rfl]
    rcases CreateHandler cmdMap w with ⟨r, w1⟩
    cases r <;> rfl
  have hU : ProcessAction cmdMap Update fileOps w =
      (match (UpdateHandler cmdMap w).1 with
        | .error err => (.error err, (UpdateHandler cmdMap w).2)
        | .panic msg => (.panic msg, (UpdateHandler cmdMap w).2)
        | .ok newMap => saveResult newMap fileOps (UpdateHandler cmdMap w).2) := by
    unfold ProcessAction
    rw [if_neg (by decide), if_neg (by decide), if_pos rfl]
    rcases UpdateHandler cmdMap w with ⟨r, w1⟩
    cases r <;> rfl
  have hR : ProcessAction cmdMap Remove fileOps w =
      (match (DeleteHandler cmdMap w).1 with
        | .error err => (.error err, (DeleteHandler cmdMap w).2)
        | .panic msg => (.panic msg, (DeleteHandler cmdMap w).2)
        | .ok newMap => saveResult newMap fileOps (DeleteHandler cmdMap w).2) := by
    unfold ProcessAction
    rw [if_neg (by decide), if_neg (by decide), if_neg (by decide), if_pos rfl]
    rcases DeleteHandler cmdMap w with ⟨r, w1⟩
    cases r <;> rfl
  have hV : ProcessAction cmdMap View fileOps w =
      (match (ViewHandler cmdMap w).1 with
        | some err => (.error err, (ViewHandler cmdMap w).2)
        | none => (.ok cmdMap, (ViewHandler cmdMap w).2)) := by
    unfold ProcessAction
    rw [if_neg (by decide), if_pos rfl]
    rcases ViewHandler cmdMap w with ⟨r, w1⟩
    cases r <;> rfl
  have fV := ViewHandler_frame cmdMap w
  refine ⟨?_, ?_, ?_, ?_, ?_, ?_, ?_, ?_⟩
  · rw [hC]
    exact persistsAfter_handler fileOps w _ (CreateHandler_kept cmdMap w).1
  · rw [hU]
    exact persistsAfter_handler fileOps w _ (UpdateHandler_kept cmdMap w).1
  · rw [hR]
    exact persistsAfter_handler fileOps w _ (DeleteHandler_saved cmdMap w)
  · intro f isMerge wa wb h1 h2
    have f1 := PromptString_frame
      "Enter the absolute file path for the commands you want to import" w
    rw [h1] at f1
    have f2 := PromptConfirm_frame
      "Do you want to merge the new commands with existing commands?" wa
    rw [h2] at f2
    have hI : ProcessAction cmdMap Import fileOps w =
        (match (ImportHandler f isMerge cmdMap fileOps wb).1 with
          | .error err => (.error err, (ImportHandler f isMerge cmdMap fileOps wb).2)
          | .panic msg => (.panic msg, (ImportHandler f isMerge cmdMap fileOps wb).2)
          | .ok newMap =>
            saveResult newMap fileOps (ImportHandler f isMerge cmdMap fileOps wb).2) := by
      unfold ProcessAction
      rw [if_neg (by decide), if_neg (by decide), if_neg (by decide), if_neg (by decide),
        if_pos rfl, h1]
      simp only []
      rw [h2]
      simp only []
      rcases ImportHandler f isMerge cmdMap fileOps wb with ⟨r, w1⟩
      cases r <;> rfl
    rw [hI]
    exact persistsAfter_handler fileOps w _
      ((ImportHandler_saved f isMerge cmdMap fileOps wb).trans (f2.2.2.trans f1.2.2))
  · rw [hV]
    cases (ViewHandler cmdMap w).1 <;> exact fV.2.2
  · rw [hV]
    cases (ViewHandler cmdMap w).1 <;> exact fV.1
  · intro h
    rw [hV, h]
  · intro err h
    rw [hV, h]

theorem process_action_persists_witness :
    (∃ S, (ProcessAction (.addr 0) Import (opsReturning extList)
        (mkWorld [mapTwo] [.str "in.json", .yes true] orderRev)).2.saved = [S] ∧
      S.length = 3 ∧ cmdLs2 ∈ S ∧
      (ProcessAction (.addr 0) Import (opsReturning extList)
        (mkWorld [mapTwo] [.str "in.json", .yes true] orderRev)).1 = .ok (.addr 0)) ∧
    (ProcessAction (.addr 0) View (opsReturning extList)
      (mkWorld [mapTwo] [.str "linux - ps"] orderRev)).1 = .ok (.addr 0) ∧
    (ProcessAction (.addr 0) View (opsReturning extList)
      (mkWorld [mapTwo] [.fail "interrupted"] orderRev)).1 = .error "interrupted" := by
  refine ⟨?_, ?_, ?_⟩
  · have h := (process_action_persists
        (mkWorld [mapTwo] [.str "in.json", .yes true] orderRev) (.addr 0)
        (opsReturning extList)).2.2.2.1
        "in.json" true _ _ rfl rfl
    rw [ImportHandler_merge_eq _ _ _ _ extList rfl] at h
    obtain ⟨S, hperm, hsaved, -, hres⟩ := h
    refine ⟨S, hsaved, ?_, ?_, hres⟩
    · rw [hperm.length_eq]
      decide
    · rw [hperm.mem_iff]
      decide
  · exact (process_action_persists (mkWorld [mapTwo] [.str "linux - ps"] orderRev) (.addr 0)
      (opsReturning extList)).2.2.2.2.2.2.1 rfl
  · exact (process_action_persists (mkWorld [mapTwo] [.fail "interrupted"] orderRev)
      (.addr 0) (opsReturning extList)).2.2.2.2.2.2.2 "interrupted" rfl

/-- C10 as stated fails: two distinct entries can have the same label, and
selecting that label then prints the record of the other entry. -/
theorem view_label_clash :
    ∃ e ∈ mapClash.entries, ∃ e2 ∈ mapClash.entries,
      e ≠ e2 ∧ entryLabel e = entryLabel e2 ∧
      (ViewHandler (.addr 0) (mkWorld [mapClash] [.str (entryLabel e)] orderId)).2.stdout
        ≠ viewRecord e.2 := by
  refine ⟨⟨"a - b", ⟨"a - b", "second", "a", ""⟩⟩, by decide,
    ⟨"b", ⟨"b", "first", "a - a", ""⟩⟩, by decide, by decide, by decide, ?_⟩
  decide

/-- Whatever order the loop of ViewHandler takes, one of the two entries of the
clashing map cannot be reached through its label. -/
theorem view_label_clash_any_order (order : RangeOrder) :
    ∃ e ∈ mapClash.entries,
      (ViewHandler (.addr 0) (mkWorld [mapClash] [.str (entryLabel e)] order)).2.stdout
        ≠ viewRecord e.2 := by
  by_contra hcon
  push_neg at hcon
  have h1 := hcon ⟨"a - b", ⟨"a - b", "second", "a", ""⟩⟩ (by decide)
  have h2 := hcon ⟨"b", ⟨"b", "first", "a - a", ""⟩⟩ (by decide)
  have hl : entryLabel ⟨"a - b", ⟨"a - b", "second", "a", ""⟩⟩ =
      entryLabel ⟨"b", ⟨"b", "first", "a - a", ""⟩⟩ := by decide
  rw [hl] at h1
  have h3 := h1.symm.trans h2
  revert h3
  decide

/-- C10, amended. For a non-empty mapping the options offered to the select
prompt are the labels "platform - name" of its entries, one per entry, in
ascending order; and for every entry whose label no other entry has, selecting
that label makes ViewHandler print the record of that entry. -/
theorem view_offers_labels (w : World) (cmdMap : Ref) (hne : (w.mapOf cmdMap).len ≠ 0) :
    (∃ opts,
      (ViewHandler cmdMap w).2.asked = w.asked ++ [.select "Select a command" opts] ∧
      opts.Perm ((w.mapOf cmdMap).entries.map entryLabel) ∧
      opts.Sorted (fun a b => a ≤ b)) ∧
    (∀ e rest, e ∈ (w.mapOf cmdMap).entries →
      (∀ e2 ∈ (w.mapOf cmdMap).entries, entryLabel e2 = entryLabel e → e2 = e) →
      w.replies = .str (entryLabel e) :: rest →
      ∃ w', ViewHandler cmdMap w = (none, w') ∧ w'.stdout = w.stdout ++ viewRecord e.2) := by
  have hes := w.order.perm w.tick (w.mapOf cmdMap).entries
  have hfst := viewEntries_fst (w.mapOf cmdMap) (w.order.shuffle w.tick (w.mapOf cmdMap).entries)
  have hlab : (w.order.shuffle w.tick (w.mapOf cmdMap).entries).map
      (fun e => viewLabel (w.mapOf cmdMap) e.1) =
      (w.order.shuffle w.tick (w.mapOf cmdMap).entries).map entryLabel :=
    List.map_congr_left (fun e he => viewLabel_of_mem _ e (hes.mem_iff.mp he))
  constructor
  · refine ⟨sortStrings ((w.order.shuffle w.tick (w.mapOf cmdMap).entries).map entryLabel),
      ?_, (sortStrings_perm _).trans (hes.map _), sortStrings_sorted _⟩
    unfold ViewHandler
    rw [if_neg hne]
    simp only [rangeMap, mapOf_tick]
    rcases hv : viewEntries (w.mapOf cmdMap) (w.order.shuffle w.tick (w.mapOf cmdMap).entries)
      with ⟨entries, table⟩
    rw [hv] at hfst
    simp only [] at hfst
    simp only []
    rw [hfst, hlab]
    have ha := PromptSelect_asked "Select a command"
      (sortStrings ((w.order.shuffle w.tick (w.mapOf cmdMap).entries).map entryLabel))
      { w with tick := w.tick + 1 }
    rcases hp : PromptSelect "Select a command"
      (sortStrings ((w.order.shuffle w.tick (w.mapOf cmdMap).entries).map entryLabel))
      { w with tick := w.tick + 1 } with ⟨r, w1⟩
    rw [hp] at ha
    cases r with
    | error err => exact ha
    | ok sel => exact ha
  · intro e rest he hu hr
    have he2 : e ∈ w.order.shuffle w.tick (w.mapOf cmdMap).entries := hes.mem_iff.mpr he
    have hlook := viewEntries_lookup (w.mapOf cmdMap)
      (w.order.shuffle w.tick (w.mapOf cmdMap).entries) e he2
      (fun e2 h2 hl => by
        have h3 := hes.mem_iff.mp h2
        rw [viewLabel_of_mem _ e2 h3, viewLabel_of_mem _ e he] at hl
        rw [hu e2 h3 hl])
    rw [viewLabel_of_mem _ e he] at hlook
    unfold ViewHandler
    rw [if_neg hne]
    simp only [rangeMap, mapOf_tick]
    rcases hv : viewEntries (w.mapOf cmdMap) (w.order.shuffle w.tick (w.mapOf cmdMap).entries)
      with ⟨entries, table⟩
    rw [hv] at hlook
    simp only [] at hlook
    have hidx : table.index (entryLabel e) = e.1 := by
      simp [GoMap.index, hlook]
    have hcmd := index_of_mem _ e he
    simp only [World.mapOf] at hcmd
    simp only [PromptSelect, hr, hidx]
    exact ⟨_, rfl, by simp [print, viewRecord, World.mapOf, hcmd]⟩

theorem view_offers_labels_witness :
    (∃ opts,
      (ViewHandler (.addr 0) (mkWorld [mapTwo] [.str "linux - ps"] orderRev)).2.asked =
        [.select "Select a command" opts] ∧
      opts.Perm ["linux - ps", "mac - ls-all"] ∧ opts.Sorted (fun a b => a ≤ b)) ∧
    (∃ w', ViewHandler (.addr 0) (mkWorld [mapTwo] [.str "linux - ps"] orderRev) = (none, w') ∧
      w'.stdout = viewRecord cmdPs) := by
  have h := view_offers_labels (mkWorld [mapTwo] [.str "linux - ps"] orderRev) (.addr 0)
    (by decide)
  constructor
  · obtain ⟨opts, ha, hp, hs⟩ := h.1
    exact ⟨opts, ha, hp, hs⟩
  · obtain ⟨w', hv, hout⟩ := h.2 ⟨"ps", cmdPs⟩ [] (by decide) (by decide) rfl
    exact ⟨w', hv, hout⟩


end cmdref
